import Mathlib

/-!
Verification of the incremental Jira hierarchy crawler and cache
(`jira_tree_loader.py`, `jira_data_transformer.py`, `jira_tree_classes.py`).

The Python code manipulates JSON-shaped dynamic values (dicts, lists,
strings, numbers, `None`).  We embed those values as the inductive type
`JVal` and embed each Python function as a Lean function over `JVal`.
Operations that can raise a dynamic type error in Python (attribute or
type errors on a receiver of the wrong shape) are embedded in the
`Option` monad: `none` models an uncaught Python exception.

Timestamps (SQLite epoch integers and server `updated` times) are
embedded as `Int`.  The thread pool of the loader has
`MAX_CONCURRENT_REQUESTS = 1`, so the engine is embedded as a sequential
interpreter; the interleaving order of sibling sub-trees differs from the
executor queue order, but every claim proved below is insensitive to the
order of events (memberships and counts only).
-/

/-- A JSON-shaped dynamic value (Python dict / list / str / int / bool / None). -/
inductive JVal where
  | null
  | str (s : String)
  | num (n : Int)
  | jbool (b : Bool)
  | arr (items : List JVal)
  | obj (entries : List (String × JVal))
  deriving Repr, Inhabited

abbrev JDict := List (String × JVal)

/-- Python truthiness of a JSON-shaped value. -/
def jTruthy : JVal → Bool
  | .null => false
  | .str s => !s.isEmpty
  | .num n => n != 0
  | .jbool b => b
  | .arr xs => !xs.isEmpty
  | .obj kvs => !kvs.isEmpty

/-- `Option` bind with inlining disabled: the default code generator is
exponential on long inlined `Option.bind` chains such as `transform`. -/
@[noinline] def obind {a b : Type} (x : Option a) (f : a -> Option b) : Option b :=
  match x with
  | some v => f v
  | none => none

/-- Python `str.strip()` (whitespace at both ends), on the character list so
that it evaluates by kernel reduction. -/
def pyStrip (s : String) : String :=
  String.mk (((s.data.dropWhile Char.isWhitespace).reverse.dropWhile Char.isWhitespace).reverse)

/-- Python prefix test `s.startswith(pre)`. -/
def pyStartsWith (s pre : String) : Bool :=
  pre.data.isPrefixOf s.data

/-- Substring test used by Python `k in s` for strings. -/
def isSubChars (needle hay : List Char) : Bool :=
  hay.tails.any (fun t => needle.isPrefixOf t)

/-- Split a character list at characters satisfying `p` (the separators are
dropped; empty segments are kept, callers strip and drop them). -/
def splitPredChars (p : Char -> Bool) : List Char -> List (List Char)
  | [] => [[]]
  | c :: cs =>
    match splitPredChars p cs with
    | [] => [[c]]
    | g :: gs => if p c then [] :: g :: gs else (c :: g) :: gs

/-- Python `str.splitlines()` up to the stripping and empty-dropping that all
callers apply: split at CR and LF characters. -/
def pySplitLines (s : String) : List String :=
  (splitPredChars (fun c => c == Char.ofNat 10 || c == Char.ofNat 13) s.data).map String.mk

/-- Lookup in a Python dict represented as an entry list.  A Python dict
built from an entry sequence keeps the value of the latest duplicate key,
hence the reversed lookup. -/
def dGet (entries : JDict) (k : String) : Option JVal :=
  entries.reverse.lookup k

/-- Python `v.get(k, d)`.  `none` models the `AttributeError` Python raises
when the receiver is not a dict. -/
def pyGetD (v : JVal) (k : String) (d : JVal) : Option JVal :=
  match v with
  | .obj kvs => some ((dGet kvs k).getD d)
  | _ => none

/-- Python `v.get(k)` (default `None`). -/
def pyGetOpt (v : JVal) (k : String) : Option JVal :=
  pyGetD v k .null

/-- Python `v == s` for a string literal `s`: true only for an equal string. -/
def jEqStr (v : JVal) (s : String) : Bool :=
  match v with
  | .str t => t == s
  | _ => false

/-- Python `str(v)` / f-string interpolation, for the shapes that occur in
the crawler (container reprs are abbreviated; they are not exercised by
object-shaped records). -/
def pyStr : JVal → String
  | .null => "None"
  | .str s => s
  | .num n => toString n
  | .jbool true => "True"
  | .jbool false => "False"
  | .arr _ => "[...]"
  | .obj _ => "{...}"

/-- Python `k in v`: key test on dicts, membership on lists, substring test
on strings; `none` models the `TypeError` raised for other receivers. -/
def pyContains (k : String) (v : JVal) : Option Bool :=
  match v with
  | .obj kvs => some (kvs.any (fun kv => kv.1 == k))
  | .arr xs => some (xs.any (fun x => jEqStr x k))
  | .str s => some (isSubChars k.data s.data)
  | _ => none

/-- `get_name` from the transformer: `obj.get('name') if isinstance(obj, dict) else None`. -/
def getNameAttr : JVal → JVal
  | .obj kvs => (dGet kvs "name").getD .null
  | _ => .null

/-- `get_display_name` from the transformer. -/
def getDisplayName : JVal → JVal
  | .obj kvs => (dGet kvs "displayName").getD .null
  | _ => .null

/-- `name_map.get(k, k)` applied to one field name.  Name maps sent by the
server are string-to-string; a non-string mapped value is kept untranslated. -/
def renameKey (nm : JDict) (k : String) : String :=
  match dGet nm k with
  | some (.str s) => s
  | _ => k

/-- The field-renaming dict comprehension
`{name_map.get(k, k): v for k, v in fields.items()}` (transformer lines
192-193).  Iterating a non-dict `fields` raises; a non-dict truthy
`name_map` raises as soon as one item is processed. -/
def renameFields (nm fields : JVal) : Option JVal :=
  match fields with
  | .obj fs =>
    match nm with
    | .obj nmEntries => some (.obj (fs.map (fun kv => (renameKey nmEntries kv.1, kv.2))))
    | _ => if fs.isEmpty then some (.obj []) else none
  | _ => none

/-! ## RecordTransformer (`jira_data_transformer.py`) -/

/-- `ALLOWED_ACTIVITY_FIELDS` (transformer lines 48-65). -/
def ALLOWED_ACTIVITY_FIELDS : List String :=
  ["Program Increment", "status", "Fix Version", "Version", "Target end",
   "Target start", "Business Scope", "Component", "Acceptance Criteria",
   "description", "summary", "resolution", "Epic Child", "Sprint",
   "Story Points", "Attachment"]

def REALIZED_BY_RELATION_NAME : String := "realizes"

/-- `_parse_acceptance_criteria` (lines 82-94): total, never raises. -/
def parseAcceptanceCriteria (ac : JVal) : JVal :=
  if !jTruthy ac then .arr []
  else match ac with
    | .arr xs => .arr xs
    | .str s =>
      let lines := ((pySplitLines s).map pyStrip).filter (fun l => !l.isEmpty)
      .arr (lines.map (fun line =>
        if pyStartsWith line "* " then JVal.str (line.drop 2)
        else if pyStartsWith line "- " then JVal.str (line.drop 2)
        else JVal.str line))
    | _ => .arr []

/-- `_create_combined_description` (lines 96-107).  A truthy non-string
value raises at `.strip()`. -/
def createCombinedDescription (fields : JVal) : Option String := do
  let bs ← pyGetD fields "Business Scope" (.str "")
  let de ← pyGetD fields "Description" (.str "")
  let parts1 ←
    if jTruthy bs then
      match bs with
      | .str s => if (pyStrip s).isEmpty then some [] else some ["*Business Scope*\r\n" ++ pyStrip s]
      | _ => none
    else some []
  let parts2 ←
    if jTruthy de then
      match de with
      | .str s =>
        let st := pyStrip s
        if st.isEmpty then some []
        else if pyStartsWith st "Description\n" then some ["*Beschreibung*\r\n" ++ pyStrip (st.drop 12)]
        else some ["*Beschreibung*\r\n" ++ st]
      | _ => none
    else some []
  pure (String.intercalate "\n\n" (parts1 ++ parts2))

/-- `_extract_business_value` (lines 109-115). -/
def extractBusinessValue (fields : JVal) : Option JVal := do
  let bv ← pyGetOpt fields "Business Value"
  let rroe ← pyGetOpt fields "RROE"
  let tc ← pyGetOpt fields "Time Criticality"
  let dd ← pyGetD fields "Due Date" (.str "")
  pure (JVal.obj [
    ("business_impact", .obj [("scale", bv), ("revenue", .str ""), ("cost_saving", .str ""),
      ("risk_loss", .str ""), ("justification", .str "")]),
    ("strategic_enablement", .obj [("scale", rroe), ("risk_minimization", .str ""),
      ("strat_enablement", .str ""), ("justification", .str "")]),
    ("time_criticality", .obj [("scale", tc), ("time", dd), ("justification", .str "")])])

/-- Inner loop over one changelog entry item list (`_extract_activities`
lines 124-142), preserving item order. -/
def itemActivities (author timestamp : JVal) : List JVal → Option (List JVal)
  | [] => some []
  | item :: rest => do
    let field_name ← pyGetOpt item "field"
    let entryAct ←
      if ALLOWED_ACTIVITY_FIELDS.any (fun f => jEqStr field_name f) then do
        let display_name := if jEqStr field_name "Version" then JVal.str "Affects Version" else field_name
        let vals ←
          if jEqStr field_name "description" then
            some (JVal.str "old description value not saved",
                  JVal.str "new description value not saved")
          else do
            let a ← pyGetOpt item "fromString"
            let n ← pyGetOpt item "toString"
            some (a, n)
        some [JVal.obj [("benutzer", author), ("feld_name", display_name),
          ("alter_wert", vals.1), ("neuer_wert", vals.2), ("zeitstempel_iso", timestamp)]]
      else some []
    let more ← itemActivities author timestamp rest
    pure (entryAct ++ more)

/-- One changelog history entry (`_extract_activities` lines 121-123). -/
def entryActivities (entry : JVal) : Option (List JVal) := do
  let author0 ← pyGetD entry "author" (.obj [])
  let author ← pyGetD author0 "displayName" (.str "Unbekannt")
  let timestamp ← pyGetD entry "created" (.str "")
  let items0 ← pyGetD entry "items" (.arr [])
  match items0 with
  | .arr items => itemActivities author timestamp items
  | _ => none

/-- `_extract_activities` (lines 117-143). -/
def extractActivities (changelog_data : JVal) : Option (List JVal) :=
  if !jTruthy changelog_data then some []
  else do
    let hist ← pyGetD changelog_data "histories" (.arr [])
    match hist with
    | .arr entries => do
      let ls ← entries.mapM entryActivities
      pure ls.flatten
    | _ => none

/-- Loop of `_extract_realized_by_links` (lines 147-158), preserving link order. -/
def realizedFromLinks : List JVal → Option (List JVal)
  | [] => some []
  | link :: rest => do
    let hasOut ← pyContains "outwardIssue" link
    let relIssue ←
      if hasOut then do
        let t ← pyGetD link "type" (.obj [])
        let r ← pyGetOpt t "inward"
        let iss ← pyGetOpt link "outwardIssue"
        some (r, iss)
      else do
        let hasIn ← pyContains "inwardIssue" link
        if hasIn then do
          let t ← pyGetD link "type" (.obj [])
          let r ← pyGetOpt t "outward"
          let iss ← pyGetOpt link "inwardIssue"
          some (r, iss)
        else some (JVal.null, JVal.null)
    let entry ←
      if jEqStr relIssue.1 REALIZED_BY_RELATION_NAME && jTruthy relIssue.2 then do
        let k ← pyGetOpt relIssue.2 "key"
        let f ← pyGetD relIssue.2 "fields" (.obj [])
        let s ← pyGetOpt f "summary"
        some [JVal.obj [("key", k), ("summary", s), ("relation_type", .str "realized_by")]]
      else some []
    let more ← realizedFromLinks rest
    pure (entry ++ more)

/-- `_extract_realized_by_links` (lines 145-158). -/
def extractRealizedByLinks (fields : JVal) : Option (List JVal) := do
  let linked ← pyGetD fields "Linked Issues" (.arr [])
  match linked with
  | .arr links => realizedFromLinks links
  | _ => none

/-- Loop of `_find_parent_key` (lines 167-169). -/
def findRealizes : List JVal → Option JVal
  | [] => some .null
  | link :: rest => do
    let hasOut ← pyContains "outwardIssue" link
    if hasOut then do
      let t ← pyGetD link "type" (.obj [])
      let ow ← pyGetOpt t "outward"
      if jEqStr ow "realizes" then do
        let oi ← pyGetD link "outwardIssue" (.obj [])
        pyGetOpt oi "key"
      else findRealizes rest
    else findRealizes rest

/-- `_find_parent_key` (lines 160-170). -/
def findParentKey (fields : JVal) : Option JVal := do
  let pl ← pyGetOpt fields "Parent Link"
  match pl with
  | .obj kvs => pure ((dGet kvs "key").getD .null)
  | .str s => pure (.str s)
  | _ => do
    let el ← pyGetOpt fields "Epic Link"
    match el with
    | .str s => pure (.str s)
    | _ => do
      let li ← pyGetD fields "Linked Issues" (.arr [])
      match li with
      | .arr links => findRealizes links
      | _ => none

/-- `_get_team_name` body on the fetched value (lines 172-177): total. -/
def teamNameOf : JVal → JVal
  | .obj kvs => (dGet kvs "name").getD ((dGet kvs "value").getD .null)
  | .str s => .str s
  | _ => .null

/-- One sub-task dict of the comprehension at `transform` line 199. -/
def subTaskEntry (task : JVal) : Option JVal := do
  let k ← pyGetOpt task "key"
  let tf ← pyGetD task "fields" (.obj [])
  let title ← pyGetD tf "summary" (.str "")
  pure (JVal.obj [("key", k), ("title", title),
    ("url", .str ("/browse/" ++ pyStr k)), ("relation_type", .str "sub_task")])

/-- Loop of the sub-task comprehension (`transform` line 199). -/
def subTasksLoop : List JVal → Option (List JVal)
  | [] => some []
  | task :: rest =>
    obind (subTaskEntry task) (fun e =>
    obind (subTasksLoop rest) (fun more =>
    some (e :: more)))

/-- Sub-task list comprehension (`transform` lines 198-199). -/
def mkSubTasks : JVal → Option (List JVal)
  | .arr tasks => subTasksLoop tasks
  | _ => none

/-- `[v.get('name') for v in xs if v]` used for fix/affects versions and
components (`transform` lines 216-219). -/
def namesOfList : JVal → Option (List JVal)
  | .arr xs => (xs.filter jTruthy).mapM (fun v => pyGetOpt v "name")
  | _ => none

/-- Python `round(n / 1024)`: 1024 is a power of two, so the float quotient
is exact and `round` is exact round-half-to-even on the rational n/1024. -/
def roundHalfEven1024 (n : Int) : Int :=
  let q := Int.fdiv n 1024
  let r := Int.fmod n 1024
  if 2 * r < 1024 then q else if 2 * r > 1024 then q + 1 else if q % 2 == 0 then q else q + 1

/-- Attachment list comprehension (`transform` line 221). -/
def mkAttachments : JVal → Option (List JVal)
  | .arr xs => xs.mapM (fun a => do
      let fn ← pyGetOpt a "filename"
      let url ← pyGetOpt a "content"
      let size ← pyGetD a "size" (.num 0)
      let sz ← match size with | .num n => some (roundHalfEven1024 n) | _ => none
      let date ← pyGetOpt a "created"
      pure (JVal.obj [("filename", fn), ("url", url),
        ("size", .str (toString sz ++ " kB")), ("date", date)]))
  | _ => none


/-- `JiraDataTransformer.transform` (lines 179-226).  Takes the raw
`/issue/{key}?expand=names,changelog` response and a previously loaded child
list and returns the canonical issue dict; `none` models an uncaught dynamic
type error.  Written as an explicit `obind` chain (the statement
`issue_type = fields.get('Issue Type', {}).get('name', '')` of line 196 is
evaluated, and can raise, although its value is unused). -/
def transform (api_data : JVal) (child_issues_list : List JVal) : Option JVal :=
  obind (pyGetD api_data "names" (.obj [])) (fun name_map =>
  obind (pyGetD api_data "fields" (.obj [])) (fun fields0 =>
  obind (if jTruthy name_map then renameFields name_map fields0 else some fields0) (fun fields =>
  obind (pyGetOpt api_data "key") (fun issue_key =>
  obind (pyGetD fields "Issue Type" (.obj [])) (fun itv =>
  obind (pyGetD itv "name" (.str "")) (fun _issue_type =>
  obind (pyGetD fields "subtasks" (.arr [])) (fun sub_tasks_raw =>
  obind (mkSubTasks sub_tasks_raw) (fun sub_tasks_list =>
  obind (extractRealizedByLinks fields) (fun realized =>
  obind (pyGetOpt fields "Issue Type") (fun issue_type_val =>
  obind (pyGetD fields "Summary" (.str "")) (fun title =>
  obind (pyGetOpt fields "Status") (fun status_val =>
  obind (pyGetOpt fields "Resolution") (fun resolution_val =>
  obind (pyGetOpt fields "Story Points") (fun story_points =>
  obind (findParentKey fields) (fun parent_link =>
  obind (createCombinedDescription fields) (fun description =>
  obind (extractBusinessValue fields) (fun business_value =>
  obind (pyGetOpt fields "Assignee") (fun assignee_val =>
  obind (pyGetOpt fields "Priority") (fun priority_val =>
  obind (pyGetOpt fields "Target start") (fun target_start =>
  obind (pyGetOpt fields "Target end") (fun target_end =>
  obind (pyGetD fields "Fix Version/s" (.arr [])) (fun fixRaw =>
  obind (namesOfList fixRaw) (fun fix_versions =>
  obind (pyGetD fields "Affects Version/s" (.arr [])) (fun affRaw =>
  obind (namesOfList affRaw) (fun affects_versions =>
  obind (pyGetOpt fields "Acceptance Criteria") (fun acRaw =>
  obind (pyGetD fields "Component/s" (.arr [])) (fun compRaw =>
  obind (namesOfList compRaw) (fun components =>
  obind (pyGetD fields "Labels" (.arr [])) (fun labels =>
  obind (pyGetD fields "Attachment" (.arr [])) (fun attRaw =>
  obind (mkAttachments attRaw) (fun attachments =>
  obind (pyGetD api_data "changelog" (.obj [])) (fun changelog =>
  obind (extractActivities changelog) (fun activities =>
  obind (pyGetOpt fields "Issue Id") (fun issue_id =>
  obind (pyGetOpt fields "Created") (fun created =>
  obind (pyGetOpt fields "Resolved") (fun resolved =>
  obind (pyGetOpt fields "Closed Date") (fun closed =>
  obind (pyGetOpt fields "Creator") (fun creator_val =>
  obind (pyGetOpt fields "Team") (fun team_val =>
  some (JVal.obj [
    ("key", issue_key),
    ("issue_type", getNameAttr issue_type_val),
    ("title", title),
    ("status", getNameAttr status_val),
    ("resolution", getNameAttr resolution_val),
    ("story_points", story_points),
    ("parent_link", parent_link),
    ("description", .str description),
    ("business_value", business_value),
    ("assignee", getDisplayName assignee_val),
    ("priority", getNameAttr priority_val),
    ("target_start", target_start),
    ("target_end", target_end),
    ("fix_versions", .arr fix_versions),
    ("affects_versions", .arr affects_versions),
    ("acceptance_criteria", parseAcceptanceCriteria acRaw),
    ("components", .arr components),
    ("labels", labels),
    ("issue_links", .arr (realized ++ child_issues_list ++ sub_tasks_list)),
    ("attachments", .arr attachments),
    ("activities", .arr activities),
    ("Issue Id", issue_id),
    ("Created", created),
    ("Resolved", resolved),
    ("Closed Date", closed),
    ("Creator", getDisplayName creator_val),
    ("Team", teamNameOf team_val)]))))))))))))))))))))))))))))))))))))))))

/-! ## IssueStore: the SQLite `issues` table (`jira_tree_loader.py`) -/

abbrev Key := String

/-- The TEXT payload of a cache row: either text that `json.loads` parses
back to a value, or corrupt text that fails to parse. -/
inductive StoredText where
  | jsonText (v : JVal)
  | invalidText
  deriving Repr, Inhabited

/-- One row of the SQLite `issues` table; `key` is the primary key. -/
structure DbRow where
  key : Key
  payload : StoredText
  ts : Int
  deriving Repr, Inhabited

/-- `INSERT ... ON CONFLICT(key) DO UPDATE` (loader lines 336-346): replace
the row carrying the primary key, else append a new row. -/
def upsertRow (db : List DbRow) (k : Key) (payload : StoredText) (ts : Int) : List DbRow :=
  match db with
  | [] => [⟨k, payload, ts⟩]
  | r :: rest => if r.key == k then ⟨k, payload, ts⟩ :: rest else r :: upsertRow rest k payload ts

/-- `SELECT ... FROM issues WHERE key = ?`. -/
def selectRow (db : List DbRow) (k : Key) : Option DbRow :=
  db.find? (fun r => r.key == k)

/-- `JiraTreeLoader._get_issue_from_db` (lines 180-200): parsed payload and
stored timestamp; a missing row or a payload that fails to decode yields
`none` (the Python function returns `(None, None)` after logging). -/
def getIssueFromDb (db : List DbRow) (issue_key : Key) : Option (JVal × Int) :=
  match selectRow db issue_key with
  | some r =>
    match r.payload with
    | .jsonText v => some (v, r.ts)
    | .invalidText => none
  | none => none

/-! ## FreshnessReconciler (`_identify_work_batch`) -/

/-- Comparison loop of `_identify_work_batch` (lines 239-253): for each key
found in the store, stale when the server time is strictly newer than the
stored time, fresh otherwise, and fresh when no server time was obtained. -/
def classifyRows (server_timestamps : Key → Option Int) : List (Key × Int) → List Key × List Key
  | [] => ([], [])
  | (k, db_mtime) :: rest =>
    let sr := classifyRows server_timestamps rest
    match server_timestamps k with
    | some server_time => if server_time > db_mtime then (k :: sr.1, sr.2) else (sr.1, k :: sr.2)
    | none => (sr.1, k :: sr.2)

/-- `JiraTreeLoader._identify_work_batch` (lines 203-255), excluding the
SQLite-error fallback of line 226: classify a batch of keys against the
store and the remote timestamps into `(new, stale, fresh)`. -/
def identifyWorkBatch (db : List DbRow) (server_timestamps : Key → Option Int)
    (keys_to_fetch : List Key) : List Key × List Key × List Key :=
  let db_keys_to_check := (db.filter (fun r => keys_to_fetch.contains r.key)).map (fun r => (r.key, r.ts))
  let new_keys := keys_to_fetch.filter (fun k => !(db_keys_to_check.any (fun p => p.1 == k)))
  if db_keys_to_check.isEmpty then (new_keys, [], [])
  else
    let sf := classifyRows server_timestamps db_keys_to_check
    (new_keys, sf.1, sf.2)

/-! ## CrawlerEngine (`JiraTreeLoader`) -/

/-- Result of one `_fetch_and_process_issue` invocation.  `data d fromCache`
is a successful return of `d` (`fromCache` marks the db-cache serve);
`noData` is the `None` returned after a `RequestException`; `skipped` is the
immediate `None` for an already claimed key; `raised` is an uncaught
exception escaping the worker. -/
inductive FetchResult where
  | data (d : JVal) (fromCache : Bool)
  | noData
  | skipped
  | raised
  deriving Repr, Inhabited

/-- External collaborators of one run: the issue endpoint (`none` models a
`RequestException`), the child search (`_find_child_issues`, already
formatted), and the batched `updated` timestamps
(`_get_server_timestamps_in_bulk`; `none` means the key was absent from the
chunked JQL responses). -/
structure Env where
  api : Key → Option JVal
  childIssues : Key → JVal → List JVal
  serverTime : Key → Option Int

/-- Mutable engine state: the mutex-guarded claimed set `processed_keys`,
the retry map `issues_to_retry` (keys in insertion order), the SQLite table,
the JSON file directory, the failure-log file lines, and a clock counting
file writes (file modification times are strictly increasing). -/
structure LState where
  processed : List Key
  retry : List Key
  db : List DbRow
  files : List (Key × JVal)
  issueLog : List Key
  now : Int
  deriving Repr, Inhabited

/-- `self.issues_to_retry[issue_key] = True`: dict insertion. -/
def retryAdd (r : List Key) (k : Key) : List Key :=
  if r.contains k then r else r ++ [k]

/-- Replace-or-append in a key-indexed association list: the overwrite of
`JIRA_ISSUES_DIR/{key}.json` (loader lines 322-325) and the attribute
update of `networkx.DiGraph.add_node` on an existing node. -/
def assocUpsert (fs : List (Key × JVal)) (k : Key) (v : JVal) : List (Key × JVal) :=
  match fs with
  | [] => [(k, v)]
  | p :: rest => if p.1 == k then (k, v) :: rest else p :: assocUpsert rest k v

/-- The `db_load` branch of the worker (lines 292-299): the cached record,
provided the task is a `db_load`, the row exists, it decodes, and the
decoded value is truthy; `none` otherwise (fall through to the full load).
-/
def cacheAttempt (db : List DbRow) (k : Key) (t : String) : Option JVal :=
  if t == "db_load" then
    match getIssueFromDb db k with
    | some dts => if jTruthy dts.1 then some dts.1 else none
    | none => none
  else none

/-- Line 316: `api_data.get('fields', {}).get('issuetype', {}).get('name', '')`. -/
def issueTypeNameOf (api_data : JVal) : Option JVal :=
  obind (pyGetD api_data "fields" (.obj []))
    (fun f => obind (pyGetD f "issuetype" (.obj []))
    (fun it => pyGetD it "name" (.str "")))

/-- `JiraTreeLoader._fetch_and_process_issue` (lines 278-366).  The
`is_retry` flag only affects log output and is dropped.  Step 1 is the
mutex-guarded test-and-set; a `db_load` whose cached record is missing,
corrupt or falsy falls through to the full load; a `RequestException` books
the key for Phase 2 and releases the claim; the success path writes the
file and upserts the SQLite row with the file modification time. -/
def fetchAndProcessIssue (env : Env) (st : LState) (issue_key : Key) (task_type : String) :
    LState × FetchResult :=
  if st.processed.contains issue_key then (st, .skipped)
  else
    let st1 := { st with processed := st.processed ++ [issue_key] }
    match cacheAttempt st1.db issue_key task_type with
    | some d => (st1, .data d true)
    | none =>
      match env.api issue_key with
      | none =>
        let st2 := { st1 with retry := retryAdd st1.retry issue_key }
        ({ st2 with processed := st2.processed.erase issue_key }, .noData)
      | some api_data =>
        match issueTypeNameOf api_data with
        | none => (st1, .raised)
        | some issue_type_name =>
          let child_issues_list := env.childIssues issue_key issue_type_name
          match transform api_data child_issues_list with
          | none => (st1, .raised)
          | some issue_data =>
            let now := st1.now + 1
            ({ st1 with
                files := assocUpsert st1.files issue_key issue_data,
                db := upsertRow st1.db issue_key (.jsonText issue_data) now,
                now := now }, .data issue_data false)

/-- Key collection of `_process_related_issues` (lines 379-384):
`list(set(link.get("key") for link in links if link.get("key")))`.  Python
set order is unspecified; first-occurrence order is chosen.  Non-string
truthy keys do not occur in link data and are dropped. -/
def collectLinkKeys (ls : List JVal) : Option (List Key) :=
  match ls.mapM (fun l => pyGetOpt l "key") with
  | some ks => some (((ks.filter jTruthy).filterMap
      (fun v => match v with | .str s => some s | _ => none)).eraseDups)
  | none => none

/-- Task assignment of `_process_related_issues` (lines 373-410): empty when
the issue has no truthy `issue_links` (a dynamic type error raised here is
caught by the calling loop, which equally leaves the state untouched); in
delta mode outside retries, new and stale keys become `full_load` tasks and
fresh keys `db_load` tasks, in submission order; otherwise every key is a
`full_load` task. -/
def tasksForIssue (db : List DbRow) (server_timestamps : Key → Option Int) (mode : String)
    (is_retry : Bool) (issue_data : JVal) : List (Key × String) :=
  match issue_data with
  | .obj kvs =>
    let links := (dGet kvs "issue_links").getD .null
    if !jTruthy links then []
    else
      match links with
      | .arr ls =>
        match collectLinkKeys ls with
        | some keys_to_fetch =>
          if keys_to_fetch.isEmpty then []
          else if mode == "delta" && !is_retry then
            let nsf := identifyWorkBatch db server_timestamps keys_to_fetch
            (nsf.1 ++ nsf.2.1).map (fun k => (k, "full_load"))
              ++ nsf.2.2.map (fun k => (k, "db_load"))
          else keys_to_fetch.map (fun k => (k, "full_load"))
        | none => []
      | _ => []
  | _ => []

/-- The task loop of `_process_related_issues` (lines 412-425), sequential
because `MAX_CONCURRENT_REQUESTS = 1`: run each task, recurse into each
truthy result, and record one trace entry `(key, task, result)` per
invocation.  The Python recursion is bounded only by the call stack; here
`fuel` bounds the number of loop steps (one unit per task and per recursion
level) so that the loop is structurally recursive; every theorem below
holds for all fuels. -/
def crawlTasks (env : Env) (mode : String) (isRetry : Bool) :
    Nat → LState → List (Key × String) → LState × List (Key × String × FetchResult)
  | 0, st, _ => (st, [])
  | fuel + 1, st, tasks =>
    match tasks with
    | [] => (st, [])
    | (k, t) :: rest =>
      let sr := fetchAndProcessIssue env st k t
      let child : LState × List (Key × String × FetchResult) :=
        match sr.2 with
        | .data d _ =>
          if jTruthy d then
            crawlTasks env mode isRetry fuel sr.1
              (tasksForIssue sr.1.db env.serverTime mode isRetry d)
          else (sr.1, [])
        | _ => (sr.1, [])
      let restOut := crawlTasks env mode isRetry fuel child.1 rest
      (restOut.1, (k, t, sr.2) :: (child.2 ++ restOut.2))

/-- `JiraTreeLoader._process_related_issues` (lines 368-425) for one issue. -/
def processRelatedIssues (env : Env) (mode : String) (is_retry : Bool) (fuel : Nat)
    (st : LState) (issue_data : JVal) : LState × List (Key × String × FetchResult) :=
  crawlTasks env mode is_retry fuel st
    (tasksForIssue st.db env.serverTime mode is_retry issue_data)

/-- Phase 2 of `run` (lines 159-176): every retried key is submitted as a
`full_load`, and each truthy result recurses with mode `full` and
`is_retry = True`.  An exception from a worker is caught by the
`as_completed` loop. -/
def phase2Retries (env : Env) (fuel : Nat) :
    LState → List Key → LState × List (Key × String × FetchResult)
  | st, [] => (st, [])
  | st, k :: rest =>
    let sr := fetchAndProcessIssue env st k "full_load"
    let child :=
      match sr.2 with
      | .data d _ =>
        if jTruthy d then processRelatedIssues env "full" true fuel sr.1 d else (sr.1, [])
      | _ => (sr.1, [])
    let restOut := phase2Retries env fuel child.1 rest
    (restOut.1, (k, "full_load", sr.2) :: (child.2 ++ restOut.2))

/-- `JiraTreeLoader._log_final_failures` (lines 467-489): deduplicate the
finally failed keys against the existing file lines and append the rest. -/
def logFinalFailures (existing_keys : List Key) (issues_to_retry : List Key) : List Key :=
  if issues_to_retry.isEmpty then existing_keys
  else existing_keys ++ issues_to_retry.filter (fun k => !existing_keys.contains k)

/-- Modelled from the spec: the tail of `run` after Phase 2 is elided in the
source (line 177 is a bare ellipsis statement), so the call that writes the
failure log is missing from the code; per the spec, keys still failing after
Phase 2 are terminal failures, written to the failure log deduplicated
against prior entries and not retried again within the run.  This models
that tail as one call to the (present) `_log_final_failures`. -/
def runTail (st : LState) : LState :=
  { st with issueLog := logFinalFailures st.issueLog st.retry }

/-- `JiraTreeLoader.run` (lines 118-177) plus the spec-modelled tail: reset
the per-run state, always fetch the start key live (`full_load`), fan out
in the current mode, then rerun every failed key as Phase 2.  Returns
`none` when the root worker raises (that call is outside any executor try
block, so the exception escapes `run`); otherwise the final state and the
full invocation trace. -/
def runLoader (env : Env) (loader_mode : String) (mode_override : Option String)
    (start_key : Key) (st0 : LState) (fuel : Nat) :
    Option (LState × List (Key × String × FetchResult)) :=
  let st := { st0 with processed := [], retry := [] }
  let current_loader_mode := mode_override.getD loader_mode
  let root := fetchAndProcessIssue env st start_key "full_load"
  match root.2 with
  | .raised => none
  | r0 =>
    let ph1 :=
      match r0 with
      | .data d _ =>
        if jTruthy d then processRelatedIssues env current_loader_mode false fuel root.1 d
        else (root.1, [])
      | _ => (root.1, [])
    let retries := ph1.1.retry
    let st3 := { ph1.1 with retry := [] }
    let ph2 := phase2Retries env fuel st3 retries
    some (runTail ph2.1, (start_key, "full_load", root.2) :: (ph1.2 ++ ph2.2))

/-! ## TreeCrawler (`jira_tree_classes.py`, `JiraTreeGenerator`) -/

/-- Attribute access `data.get(k, default)` on stored node data.  Node data
written by the crawler is object-shaped; Python would raise on a non-dict
receiver, which object-valued stores never produce. -/
def nodeGet (d : JVal) (k : String) (dflt : JVal) : JVal :=
  match d with
  | .obj kvs => (dGet kvs k).getD dflt
  | _ => dflt

/-- The in-memory `networkx.DiGraph`: nodes in insertion order with their
attribute dicts, and directed edges.  `add_edge` is idempotent. -/
structure IssueGraph where
  nodes : List (Key × JVal)
  edges : List (Key × Key)
  deriving Repr, Inhabited

/-- `G.add_edge(p, c)`. -/
def addEdge (es : List (Key × Key)) (p c : Key) : List (Key × Key) :=
  if es.contains (p, c) then es else es ++ [(p, c)]

/-- `JiraTreeGenerator._fetch_issue_data` over the DB connection (lines
97-115): SELECT the payload and parse it; a missing row or a parse failure
yields `None`.  (The file fallback of lines 117-124 is not exercised when a
connection is present.) -/
def fetchIssueData (db : List DbRow) (k : Key) : Option JVal :=
  match selectRow db k with
  | some r =>
    match r.payload with
    | .jsonText v => some v
    | .invalidText => none
  | none => none

/-- `resolutions_to_skip` (line 182). -/
def resolutionsToSkip : List String := ["Rejected", "Withdrawn"]

/-- `resolution in resolutions_to_skip` for a dynamic resolution value. -/
def resolutionExcluded (res : JVal) : Bool :=
  match res with
  | .str s => resolutionsToSkip.contains s
  | _ => false

/-- `self.allowed_hierarchy_types.get(parent_issue_type, [])` (line 200):
the relation kinds allowed for a node type; a non-string type is not a dict
key and yields the default. -/
def cfgGetRelations (cfg : List (String × List String)) (t : JVal) : List String :=
  match t with
  | .str s => ((cfg.find? (fun p => p.1 == s)).map (fun p => p.2)).getD []
  | _ => []

/-- `root_issue_type not in self.allowed_hierarchy_types` (line 176). -/
def cfgHasType (cfg : List (String × List String)) (t : JVal) : Bool :=
  match t with
  | .str s => cfg.any (fun p => p.1 == s)
  | _ => false

/-- Traversal state of `build_issue_tree`: the graph under construction and
the `visited` set. -/
structure BuildState where
  graph : IssueGraph
  visited : List Key
  deriving Repr, Inhabited

mutual

/-- `_add_children` (lines 191-229): return immediately for a visited key,
otherwise mark it visited and walk its allowed links.  `fuel` bounds the
recursion depth (`buildIssueTree` passes a depth that the visited set can
never exhaust); the cycle-safety theorem quantifies over all fuels. -/
def addChildren (db : List DbRow) (cfg : List (String × List String))
    (include_rejected : Bool) : Nat → BuildState → Key → BuildState
  | 0, bs, _ => bs
  | fuel + 1, bs, parent_key =>
    if bs.visited.contains parent_key then bs
    else
      let bs1 := { bs with visited := bs.visited ++ [parent_key] }
      let parent_data := ((bs1.graph.nodes.find? (fun p => p.1 == parent_key)).map
        (fun p => p.2)).getD .null
      let allowed := cfgGetRelations cfg (nodeGet parent_data "issue_type" (.str ""))
      if allowed.isEmpty then bs1
      else
        match parent_data with
        | .obj kvs =>
          if !(kvs.any (fun kv => kv.1 == "issue_links")) then bs1
          else
            match (dGet kvs "issue_links").getD .null with
            | .arr links => addLinks db cfg include_rejected fuel bs1 parent_key allowed links
            | _ => bs1
        | _ => bs1
  termination_by fuel _ _ => (fuel, 0)

/-- The link loop of `_add_children` (lines 205-229): follow each link whose
`relation_type` is allowed, resolve the child from the store, skip excluded
resolutions, add node and edge, and recurse. -/
def addLinks (db : List DbRow) (cfg : List (String × List String))
    (include_rejected : Bool) :
    Nat → BuildState → Key → List String → List JVal → BuildState
  | _, bs, _, _, [] => bs
  | fuel, bs, parent_key, allowed, link :: rest =>
    let relation_type := nodeGet link "relation_type" .null
    if (match relation_type with | .str s => allowed.contains s | _ => false) then
      let child_key_val := nodeGet link "key" .null
      if !jTruthy child_key_val then addLinks db cfg include_rejected fuel bs parent_key allowed rest
      else
        match child_key_val with
        | .str child_key =>
          match fetchIssueData db child_key with
          | none => addLinks db cfg include_rejected fuel bs parent_key allowed rest
          | some child_data =>
            if !include_rejected && resolutionExcluded (nodeGet child_data "resolution" .null) then
              addLinks db cfg include_rejected fuel bs parent_key allowed rest
            else
              let bs2 : BuildState := { bs with graph :=
                { nodes := assocUpsert bs.graph.nodes child_key child_data,
                  edges := addEdge bs.graph.edges parent_key child_key } }
              let bs3 := addChildren db cfg include_rejected fuel bs2 child_key
              addLinks db cfg include_rejected fuel bs3 parent_key allowed rest
        | _ => addLinks db cfg include_rejected fuel bs parent_key allowed rest
    else addLinks db cfg include_rejected fuel bs parent_key allowed rest
  termination_by fuel _ _ _ links => (fuel, links.length + 1)

end

/-- `JiraTreeGenerator.build_issue_tree` (lines 159-237): validate the root
(found and truthy, of an allowed hierarchy type, not excluded by
resolution), seed the graph with the root node and expand recursively.  The
starting fuel `db.length + 1` exceeds the recursion depth that the visited
set admits: every working frame appends a distinct store key (or the root)
to `visited`. -/
def buildIssueTree (cfg : List (String × List String)) (db : List DbRow)
    (root_key : Key) (include_rejected : Bool) : Option IssueGraph :=
  match fetchIssueData db root_key with
  | none => none
  | some root_data =>
    if !jTruthy root_data then none
    else if !cfgHasType cfg (nodeGet root_data "issue_type" (.str "")) then none
    else if !include_rejected && resolutionExcluded (nodeGet root_data "resolution" .null) then none
    else
      let g0 : IssueGraph := { nodes := assocUpsert [] root_key root_data, edges := [] }
      let bs := addChildren db cfg include_rejected (db.length + 1)
        { graph := g0, visited := [] } root_key
      some bs.graph

/-! ## Basic lemmas -/

theorem obind_eq_some {a b : Type} (x : Option a) (f : a → Option b) (y : b) :
    obind x f = some y ↔ ∃ v, x = some v ∧ f v = some y := by
  cases x <;> simp [obind]

theorem selectRow_upsertRow (db : List DbRow) (k : Key) (payload : StoredText) (ts : Int) :
    selectRow (upsertRow db k payload ts) k = some ⟨k, payload, ts⟩ := by
  induction db with
  | nil => simp [upsertRow, selectRow, List.find?]
  | cons r rest ih =>
    cases h : r.key == k with
    | true => simp [upsertRow, selectRow, h, List.find?]
    | false =>
      simp only [upsertRow, h, Bool.false_eq_true, if_false, selectRow, List.find?, cond_false]
      exact ih

/-! ## The canonical record produced for a raw issue with no fields -/

/-- The record `transform` returns when the raw record carries key `kv` and
an empty fields map: every absent optional field maps to the empty string,
the empty list, or null. -/
def emptyFieldsIssue (kv : JVal) : JVal :=
  JVal.obj [
    ("key", kv),
    ("issue_type", .null),
    ("title", .str ""),
    ("status", .null),
    ("resolution", .null),
    ("story_points", .null),
    ("parent_link", .null),
    ("description", .str ""),
    ("business_value", .obj [
      ("business_impact", .obj [("scale", .null), ("revenue", .str ""), ("cost_saving", .str ""),
        ("risk_loss", .str ""), ("justification", .str "")]),
      ("strategic_enablement", .obj [("scale", .null), ("risk_minimization", .str ""),
        ("strat_enablement", .str ""), ("justification", .str "")]),
      ("time_criticality", .obj [("scale", .null), ("time", .str ""), ("justification", .str "")])]),
    ("assignee", .null),
    ("priority", .null),
    ("target_start", .null),
    ("target_end", .null),
    ("fix_versions", .arr []),
    ("affects_versions", .arr []),
    ("acceptance_criteria", .arr []),
    ("components", .arr []),
    ("labels", .arr []),
    ("issue_links", .arr []),
    ("attachments", .arr []),
    ("activities", .arr []),
    ("Issue Id", .null),
    ("Created", .null),
    ("Resolved", .null),
    ("Closed Date", .null),
    ("Creator", .null),
    ("Team", .null)]

/-- C9: `transform` never raises when the optional fields are absent: on a
raw record whose fields map is empty (every optional field missing, any key
value) it succeeds, and each absent field maps to an empty string, an empty
list, or null in the result. -/
theorem transform_defaults_on_missing_fields :
    ∀ kv : JVal, transform (JVal.obj [("key", kv)]) [] = some (emptyFieldsIssue kv) :=
  fun _ => rfl

/-- C5: a `db_load` task whose key has no stored record, or whose stored
payload fails to decode, is observationally equivalent to a `full_load`
task for that key: the worker neither fails nor returns the corrupt data
but falls through to the live-fetch path. -/
theorem cache_miss_downgrades_to_full_load :
    ∀ (env : Env) (st : LState) (k : Key),
      getIssueFromDb st.db k = none →
      fetchAndProcessIssue env st k "db_load" = fetchAndProcessIssue env st k "full_load" := by
  intro env st k h
  unfold fetchAndProcessIssue
  simp [cacheAttempt, h]

/-- C8: round trip through the store: persisting any transformer output via
the SQLite upsert and reading it back via the store get returns the record,
equal in all fields, together with the stored timestamp. -/
theorem store_roundtrip_after_transform :
    ∀ (raw : JVal) (children : List JVal) (issue_data : JVal) (db : List DbRow) (k : Key) (ts : Int),
      transform raw children = some issue_data →
      getIssueFromDb (upsertRow db k (.jsonText issue_data) ts) k = some (issue_data, ts) := by
  intro raw children issue_data db k ts _
  simp [getIssueFromDb, selectRow_upsertRow]

/-! ### Concrete fixtures for the witnesses -/

/-- An environment in which every remote call fails with a transport error. -/
def envDown : Env :=
  { api := fun _ => none, childIssues := fun _ _ => [], serverTime := fun _ => none }

/-- A pristine engine state: nothing claimed, empty store and directories. -/
def st0 : LState :=
  { processed := [], retry := [], db := [], files := [], issueLog := [], now := 0 }

theorem cache_miss_downgrades_to_full_load_witness :
    getIssueFromDb st0.db "PRJ-1" = none ∧
    fetchAndProcessIssue envDown st0 "PRJ-1" "db_load" =
      fetchAndProcessIssue envDown st0 "PRJ-1" "full_load" :=
  ⟨rfl, cache_miss_downgrades_to_full_load envDown st0 "PRJ-1" rfl⟩

theorem store_roundtrip_after_transform_witness :
    getIssueFromDb (upsertRow [] "X" (.jsonText (emptyFieldsIssue (.str "X"))) 7) "X" =
      some (emptyFieldsIssue (.str "X"), 7) :=
  store_roundtrip_after_transform (JVal.obj [("key", .str "X")]) [] (emptyFieldsIssue (.str "X"))
    [] "X" 7 rfl

/-! ## C1: the delta-mode freshness classification -/

/-- The comparison loop splits the checked rows by the freshness test. -/
theorem classifyRows_eq (stm : Key → Option Int) (rows : List (Key × Int)) :
    classifyRows stm rows =
      ((rows.filter fun p => match stm p.1 with
          | some rt => decide (p.2 < rt) | none => false).map Prod.fst,
       (rows.filter fun p => match stm p.1 with
          | some rt => decide (rt ≤ p.2) | none => true).map Prod.fst) := by
  induction rows with
  | nil => rfl
  | cons hd rest ih =>
    obtain ⟨k0, t0⟩ := hd
    rcases h0 : stm k0 with _ | rt0
    · simp [classifyRows, ih, h0, List.filter_cons]
    · by_cases hcmp : t0 < rt0
      · simp [classifyRows, ih, h0, List.filter_cons, hcmp, not_le.mpr hcmp]
      · simp [classifyRows, ih, h0, List.filter_cons, hcmp, not_lt.mp hcmp]

theorem find?_key_of_mem_nodup {db : List DbRow} {r : DbRow} {k : Key}
    (hnd : (db.map DbRow.key).Nodup) (hr : r ∈ db) (hk : r.key = k) :
    db.find? (fun x => x.key == k) = some r := by
  induction db with
  | nil => cases hr
  | cons r0 rest ih =>
    rcases List.mem_cons.mp hr with rfl | hr'
    · simp [List.find?, hk]
    · have hnd' := hnd
      simp only [List.map_cons, List.nodup_cons] at hnd'
      have hne : (r0.key == k) = false := by
        apply beq_false_of_ne
        intro he
        exact hnd'.1 (he ▸ hk ▸ List.mem_map_of_mem DbRow.key hr')
      simp only [List.find?, hne]
      exact ih hnd'.2 hr'

/-- `_identify_work_batch` unconditionally equals the pair of the new-key
filter and the comparison loop on the checked rows (the empty-check early
return coincides with the loop on no rows). -/
theorem identifyWorkBatch_eq (db : List DbRow) (stm : Key → Option Int) (keys : List Key) :
    identifyWorkBatch db stm keys =
      ((keys.filter fun k =>
          !((db.filter (fun r => keys.contains r.key)).map (fun r => (r.key, r.ts))).any
            (fun p => p.1 == k)),
       classifyRows stm ((db.filter (fun r => keys.contains r.key)).map (fun r => (r.key, r.ts)))) := by
  unfold identifyWorkBatch
  cases h : (db.filter (fun r => keys.contains r.key)).map (fun r => (r.key, r.ts)) with
  | nil => rfl
  | cons p ps => rfl

theorem mem_checkedRows_iff {db : List DbRow} {keys : List Key} {k : Key} {t : Int}
    (hk : k ∈ keys) :
    ((k, t) ∈ (db.filter (fun r => keys.contains r.key)).map (fun r => (r.key, r.ts))) ↔
      ∃ r ∈ db, r.key = k ∧ r.ts = t := by
  simp only [List.mem_map, List.mem_filter, Prod.mk.injEq]
  constructor
  · rintro ⟨r, ⟨hrdb, _⟩, hk', ht'⟩
    exact ⟨r, hrdb, hk', ht'⟩
  · rintro ⟨r, hrdb, hk', ht'⟩
    refine ⟨r, ⟨hrdb, ?_⟩, hk', ht'⟩
    rw [hk']
    exact List.elem_iff.mpr hk

/-- The classification contract of the delta-mode freshness check for one
key of a batch: member of exactly one of the three result lists, `new` iff
no store row, `stale` iff the remote time strictly exceeds the stored time,
`fresh` iff the remote time does not exceed it or cannot be obtained. -/
def FreshnessPartition (db : List DbRow) (stm : Key → Option Int)
    (keys : List Key) (k : Key) : Prop :=
  (k ∈ (identifyWorkBatch db stm keys).1 ↔ selectRow db k = none) ∧
  (k ∈ (identifyWorkBatch db stm keys).2.1 ↔
     ∃ r, selectRow db k = some r ∧ ∃ rt, stm k = some rt ∧ rt > r.ts) ∧
  (k ∈ (identifyWorkBatch db stm keys).2.2 ↔
     ∃ r, selectRow db k = some r ∧ ∀ rt, stm k = some rt → rt ≤ r.ts) ∧
  (k ∈ (identifyWorkBatch db stm keys).1 ∨ k ∈ (identifyWorkBatch db stm keys).2.1 ∨
     k ∈ (identifyWorkBatch db stm keys).2.2) ∧
  ¬(k ∈ (identifyWorkBatch db stm keys).1 ∧ k ∈ (identifyWorkBatch db stm keys).2.1) ∧
  ¬(k ∈ (identifyWorkBatch db stm keys).1 ∧ k ∈ (identifyWorkBatch db stm keys).2.2) ∧
  ¬(k ∈ (identifyWorkBatch db stm keys).2.1 ∧ k ∈ (identifyWorkBatch db stm keys).2.2)

/-- C1: delta-mode freshness classification.  Every key of the batch is
classified into exactly one of the three classes: a key with no record in
the store is new; a key with a record whose remote timestamp strictly
exceeds the stored timestamp is stale; a key with a record whose remote
timestamp is less than or equal to the stored one is fresh; and a key with
a record but no obtainable remote timestamp is fresh (served from cache)
rather than failing the batch. -/
theorem freshness_classification_partition :
    ∀ (db : List DbRow) (stm : Key → Option Int) (keys : List Key) (k : Key),
      (db.map DbRow.key).Nodup → k ∈ keys → FreshnessPartition db stm keys k := by
  intro db stm keys k hnd hk
  unfold FreshnessPartition
  rw [identifyWorkBatch_eq, classifyRows_eq]
  dsimp only
  have hnew : (k ∈ keys.filter fun k =>
      !((db.filter (fun r => keys.contains r.key)).map (fun r => (r.key, r.ts))).any
        (fun p => p.1 == k)) ↔ selectRow db k = none := by
    rw [List.mem_filter]
    simp only [hk, true_and, Bool.not_eq_true']
    constructor
    · intro hall
      rw [List.any_eq_false] at hall
      rw [selectRow, List.find?_eq_none]
      intro r hr hbeq
      have hrk : r.key = k := by simpa using hbeq
      have hmem : ((k, r.ts)) ∈ (db.filter (fun r => keys.contains r.key)).map
          (fun r => (r.key, r.ts)) := (mem_checkedRows_iff hk).mpr ⟨r, hr, hrk, rfl⟩
      have hfalse := hall _ hmem
      simp at hfalse
    · intro hnone
      rw [List.any_eq_false]
      rintro ⟨k1, t1⟩ hp hbeq
      obtain rfl : k1 = k := by simpa using hbeq
      obtain ⟨r, hrdb, hrk, _⟩ := (mem_checkedRows_iff hk).mp hp
      rw [selectRow, List.find?_eq_none] at hnone
      exact hnone r hrdb (by simp [hrk])
  have hstale : (k ∈ (((db.filter (fun r => keys.contains r.key)).map
        (fun r => (r.key, r.ts))).filter fun p => match stm p.1 with
          | some rt => decide (p.2 < rt) | none => false).map Prod.fst) ↔
      ∃ r, selectRow db k = some r ∧ ∃ rt, stm k = some rt ∧ rt > r.ts := by
    rw [List.mem_map]
    constructor
    · rintro ⟨⟨k1, t1⟩, hpmem, hpk⟩
      obtain rfl : k = k1 := hpk.symm
      rw [List.mem_filter] at hpmem
      obtain ⟨hpmem, hpcond⟩ := hpmem
      obtain ⟨r, hrdb, hrk, hrts⟩ := (mem_checkedRows_iff hk).mp hpmem
      refine ⟨r, find?_key_of_mem_nodup hnd hrdb hrk, ?_⟩
      rcases hstm : stm k with _ | rt
      · rw [hstm] at hpcond; cases hpcond
      · rw [hstm] at hpcond
        refine ⟨rt, rfl, ?_⟩
        rw [hrts]
        simpa using hpcond
    · rintro ⟨r, hsel, rt, hstm, hgt⟩
      have hrdb := List.mem_of_find?_eq_some hsel
      have hrk : r.key = k := by simpa using List.find?_some hsel
      refine ⟨(k, r.ts), ?_, rfl⟩
      rw [List.mem_filter]
      refine ⟨(mem_checkedRows_iff hk).mpr ⟨r, hrdb, hrk, rfl⟩, ?_⟩
      simp only [hstm]
      simpa using hgt
  have hfresh : (k ∈ (((db.filter (fun r => keys.contains r.key)).map
        (fun r => (r.key, r.ts))).filter fun p => match stm p.1 with
          | some rt => decide (rt ≤ p.2) | none => true).map Prod.fst) ↔
      ∃ r, selectRow db k = some r ∧ ∀ rt, stm k = some rt → rt ≤ r.ts := by
    rw [List.mem_map]
    constructor
    · rintro ⟨⟨k1, t1⟩, hpmem, hpk⟩
      obtain rfl : k = k1 := hpk.symm
      rw [List.mem_filter] at hpmem
      obtain ⟨hpmem, hpcond⟩ := hpmem
      obtain ⟨r, hrdb, hrk, hrts⟩ := (mem_checkedRows_iff hk).mp hpmem
      refine ⟨r, find?_key_of_mem_nodup hnd hrdb hrk, ?_⟩
      intro rt hstm
      rw [hstm] at hpcond
      rw [hrts]
      simpa using hpcond
    · rintro ⟨r, hsel, hle⟩
      have hrdb := List.mem_of_find?_eq_some hsel
      have hrk : r.key = k := by simpa using List.find?_some hsel
      refine ⟨(k, r.ts), ?_, rfl⟩
      rw [List.mem_filter]
      refine ⟨(mem_checkedRows_iff hk).mpr ⟨r, hrdb, hrk, rfl⟩, ?_⟩
      rcases hstm : stm k with _ | rt
      · rfl
      · simpa using hle rt hstm
  refine ⟨hnew, hstale, hfresh, ?_, ?_, ?_, ?_⟩
  · rcases hsel : selectRow db k with _ | r
    · exact Or.inl (hnew.mpr hsel)
    · rcases hstm : stm k with _ | rt
      · refine Or.inr (Or.inr (hfresh.mpr ⟨r, hsel, fun rt h => ?_⟩))
        rw [h] at hstm; cases hstm
      · by_cases hgt : rt > r.ts
        · exact Or.inr (Or.inl (hstale.mpr ⟨r, hsel, rt, hstm, hgt⟩))
        · refine Or.inr (Or.inr (hfresh.mpr ⟨r, hsel, fun rt' h => ?_⟩))
          rw [h] at hstm
          cases hstm
          exact le_of_not_lt hgt
  · rintro ⟨h1, h2⟩
    obtain ⟨r, hsel, _⟩ := hstale.mp h2
    rw [hnew.mp h1] at hsel; cases hsel
  · rintro ⟨h1, h2⟩
    obtain ⟨r, hsel, _⟩ := hfresh.mp h2
    rw [hnew.mp h1] at hsel; cases hsel
  · rintro ⟨h1, h2⟩
    obtain ⟨r1, hsel1, rt, hstm, hgt⟩ := hstale.mp h1
    obtain ⟨r2, hsel2, hle⟩ := hfresh.mp h2
    rw [hsel1] at hsel2
    cases hsel2
    exact absurd (hle rt hstm) (not_le.mpr hgt)

/-- A one-row store and a remote clock for the classification witness. -/
def dbW : List DbRow := [⟨"PRJ-1", .jsonText (.obj [("key", .str "PRJ-1")]), 100⟩]

def stmW : Key → Option Int := fun k => if k = "PRJ-1" then some 150 else none

theorem freshness_classification_partition_witness :
    FreshnessPartition dbW stmW ["PRJ-1", "PRJ-9"] "PRJ-1" :=
  freshness_classification_partition dbW stmW ["PRJ-1", "PRJ-9"] "PRJ-1"
    (by decide) (by decide)

def cycIssue (k target : String) : JVal :=
  JVal.obj [("key", .str k), ("issue_type", .str "Epic"), ("resolution", .null),
    ("issue_links", .arr [.obj [("key", .str target), ("relation_type", .str "realized_by")]])]

def cycDb : List DbRow :=
  [⟨"A", .jsonText (cycIssue "A" "B"), 1⟩,
   ⟨"B", .jsonText (cycIssue "B" "C"), 1⟩,
   ⟨"C", .jsonText (cycIssue "C" "A"), 1⟩]

def cycCfg : List (String × List String) := [("Epic", ["realized_by"])]

theorem addChildren_visited (db : List DbRow) (cfg : List (String × List String))
    (incl : Bool) (fuel : Nat) (bs : BuildState) (pk : Key)
    (h : pk ∈ bs.visited) :
    addChildren db cfg incl fuel bs pk = bs := by
  cases fuel with
  | zero => simp [addChildren]
  | succ f => simp [addChildren, h]

/-- C3: cycle safety of the cache-only tree build.  On the synthetic cyclic
link store A to B to C back to A (relation kind allowed for every node
type), the expansion terminates — its result is the same for every
sufficiently large fuel — and `buildIssueTree "A"` succeeds with exactly
the nodes A, B, C. -/
theorem build_issue_tree_cycle_safe :
    (∀ n : Nat,
      ((addChildren cycDb cycCfg false (n + 3)
        { graph := { nodes := assocUpsert [] "A" (cycIssue "A" "B"), edges := [] },
          visited := [] } "A").graph.nodes.map Prod.fst) = ["A", "B", "C"]) ∧
    ∃ g, buildIssueTree cycCfg cycDb "A" false = some g ∧
      g.nodes.map Prod.fst = ["A", "B", "C"] := by
  have h1 : ∀ n : Nat,
      ((addChildren cycDb cycCfg false (n + 3)
        { graph := { nodes := assocUpsert [] "A" (cycIssue "A" "B"), edges := [] },
          visited := [] } "A").graph.nodes.map Prod.fst) = ["A", "B", "C"] := by
    intro n
    simp only [show n + 3 = (n + 2) + 1 from rfl]
    rw [addChildren]
    simp [show "A".isEmpty = false from rfl, show "B".isEmpty = false from rfl,
      show "C".isEmpty = false from rfl,
      addLinks, addChildren_visited, cycDb, cycIssue, cycCfg, cfgGetRelations, nodeGet, dGet,
      fetchIssueData, selectRow, resolutionExcluded, resolutionsToSkip, assocUpsert, addEdge, jTruthy,
      List.lookup]
    simp only [show n + 2 = (n + 1) + 1 from rfl]
    rw [addChildren]
    simp [show "A".isEmpty = false from rfl, show "B".isEmpty = false from rfl,
      show "C".isEmpty = false from rfl,
      addLinks, addChildren_visited, cycDb, cycIssue, cycCfg, cfgGetRelations, nodeGet, dGet,
      fetchIssueData, selectRow, resolutionExcluded, resolutionsToSkip, assocUpsert, addEdge, jTruthy,
      List.lookup]
    rw [addChildren]
    simp [show "A".isEmpty = false from rfl, show "B".isEmpty = false from rfl,
      show "C".isEmpty = false from rfl,
      addLinks, addChildren_visited, cycDb, cycIssue, cycCfg, cfgGetRelations, nodeGet, dGet,
      fetchIssueData, selectRow, resolutionExcluded, resolutionsToSkip, assocUpsert, addEdge, jTruthy,
      List.lookup]
  refine ⟨h1, ?_⟩
  have hbuild : buildIssueTree cycCfg cycDb "A" false =
      some ((addChildren cycDb cycCfg false (1 + 3)
        { graph := { nodes := assocUpsert [] "A" (cycIssue "A" "B"), edges := [] },
          visited := [] } "A").graph) := by
    simp [buildIssueTree, fetchIssueData, selectRow, cycDb, cycIssue, cycCfg, cfgHasType,
      nodeGet, dGet, jTruthy, resolutionExcluded, resolutionsToSkip, assocUpsert, List.lookup,
      show "A".isEmpty = false from rfl]
  exact ⟨_, hbuild, by simpa using h1 1⟩

/-! ## Step lemmas for the worker -/

theorem erase_append_singleton (l : List Key) (k : Key) (h : k ∉ l) :
    (l ++ [k]).erase k = l := by
  induction l with
  | nil => simp
  | cons a as ih =>
    simp only [List.mem_cons, not_or] at h
    rw [List.cons_append, List.erase_cons]
    rw [if_neg (by simpa using Ne.symm h.1)]
    rw [ih h.2]

/-- Step 1 of the worker: an already claimed key returns immediately, with
no fetch, no transform, no write, and an unchanged state. -/
theorem fetch_skip (env : Env) (st : LState) (k : Key) (t : String)
    (h : k ∈ st.processed) : fetchAndProcessIssue env st k t = (st, .skipped) := by
  simp [fetchAndProcessIssue, h]

/-- Case analysis of one worker invocation on its own key. -/
theorem fetch_step_cases (env : Env) (st : LState) (k : Key) (t : String) :
    (k ∈ st.processed ∧ fetchAndProcessIssue env st k t = (st, .skipped)) ∨
    (k ∉ st.processed ∧
      ((∃ d b, (fetchAndProcessIssue env st k t).2 = .data d b ∧
          k ∈ (fetchAndProcessIssue env st k t).1.processed) ∨
       ((fetchAndProcessIssue env st k t).2 = .noData ∧
          (fetchAndProcessIssue env st k t).1.processed = st.processed) ∨
       ((fetchAndProcessIssue env st k t).2 = .raised ∧
          k ∈ (fetchAndProcessIssue env st k t).1.processed))) := by
  by_cases hm : k ∈ st.processed
  · exact Or.inl ⟨hm, fetch_skip env st k t hm⟩
  · refine Or.inr ⟨hm, ?_⟩
    have hc : st.processed.contains k = false := by simpa using hm
    simp only [fetchAndProcessIssue, hc, Bool.false_eq_true, if_false]
    rcases hcache : cacheAttempt st.db k t with _ | d
    · rcases hapi : env.api k with _ | api_data
      · refine Or.inr (Or.inl ⟨by simp [*], ?_⟩)
        simpa using erase_append_singleton st.processed k hm
      · rcases hname : issueTypeNameOf api_data with _ | itn
        · refine Or.inr (Or.inr ⟨by simp [*], by simp [*]⟩)
        · rcases htr : transform api_data (env.childIssues k itn) with _ | issue_data
          · refine Or.inr (Or.inr ⟨by simp [*], by simp [*]⟩)
          · exact Or.inl ⟨issue_data, false, by simp [*], by simp [*]⟩
    · exact Or.inl ⟨d, true, by simp [*], by simp [*]⟩

/-- A worker invocation never touches the claimed-set membership of a
different key. -/
theorem fetch_step_other (env : Env) (st : LState) (k : Key) (t : String) (j : Key)
    (hne : j ≠ k) :
    (j ∈ (fetchAndProcessIssue env st k t).1.processed ↔ j ∈ st.processed) := by
  by_cases hm : k ∈ st.processed
  · rw [fetch_skip env st k t hm]
  · have hc : st.processed.contains k = false := by simpa using hm
    simp only [fetchAndProcessIssue, hc, Bool.false_eq_true, if_false]
    rcases hcache : cacheAttempt st.db k t with _ | d
    · rcases hapi : env.api k with _ | api_data
      · simp only []
        constructor
        · intro hj
          have := (List.mem_erase_of_ne hne).mp hj
          rcases List.mem_append.mp this with h | h
          · exact h
          · simp at h; exact absurd h hne
        · intro hj
          exact (List.mem_erase_of_ne hne).mpr (List.mem_append.mpr (Or.inl hj))
      · rcases hname : issueTypeNameOf api_data with _ | itn
        · simp [*]
        · rcases htr : transform api_data (env.childIssues k itn) with _ | issue_data
          · simp [*]
          · simp [*]
    · simp [*]

/-- A worker invocation never writes the failure log. -/
theorem fetch_step_issueLog (env : Env) (st : LState) (k : Key) (t : String) :
    (fetchAndProcessIssue env st k t).1.issueLog = st.issueLog := by
  by_cases hm : k ∈ st.processed
  · rw [fetch_skip env st k t hm]
  · have hc : st.processed.contains k = false := by simpa using hm
    simp only [fetchAndProcessIssue, hc, Bool.false_eq_true, if_false]
    rcases hcache : cacheAttempt st.db k t with _ | d
    · rcases hapi : env.api k with _ | api_data
      · simp [*]
      · rcases hname : issueTypeNameOf api_data with _ | itn
        · simp [*]
        · rcases htr : transform api_data (env.childIssues k itn) with _ | issue_data
          · simp [*]
          · simp [*]
    · simp [*]

/-- Only a `db_load` task can be served from the cache. -/
theorem fetch_not_served (env : Env) (st : LState) (k : Key) (t : String)
    (ht : t ≠ "db_load") :
    ∀ d, (fetchAndProcessIssue env st k t).2 ≠ .data d true := by
  intro d
  by_cases hm : k ∈ st.processed
  · rw [fetch_skip env st k t hm]; simp
  · have hc : st.processed.contains k = false := by simpa using hm
    have htb : (t == "db_load") = false := by simpa using ht
    have hcache : cacheAttempt st.db k t = none := by simp [cacheAttempt, htb]
    simp only [fetchAndProcessIssue, hc, Bool.false_eq_true, if_false, hcache]
    rcases hapi : env.api k with _ | api_data
    · simp [*]
    · rcases hname : issueTypeNameOf api_data with _ | itn
      · simp [*]
      · rcases htr : transform api_data (env.childIssues k itn) with _ | issue_data
        · simp [*]
        · simp [*]

/-- The failure path of the worker in one equation: on a transport error
the key is booked for retry, released from the claimed set, and no data is
returned; nothing else in the state changes. -/
theorem fetch_fail_postcondition (env : Env) (st : LState) (k : Key) (t : String)
    (hm : k ∉ st.processed) (hcache : cacheAttempt st.db k t = none)
    (hapi : env.api k = none) :
    fetchAndProcessIssue env st k t = ({ st with retry := retryAdd st.retry k }, .noData) := by
  have hc : st.processed.contains k = false := by simpa using hm
  simp only [fetchAndProcessIssue, hc, Bool.false_eq_true, if_false, hcache, hapi]
  rw [erase_append_singleton st.processed k hm]

/-- C7: when the live fetch of an unclaimed key fails with a transport
error, the worker books the key in the retry map, releases it from the
claimed set and returns no data — afterwards the key is absent from the
claimed set and present in the retry map and the rest of the state is
untouched — while every previously claimed key stays claimed across any
invocation (the claimed set is never reset). -/
theorem failed_fetch_released_and_retried :
    (∀ (env : Env) (st : LState) (k : Key),
        k ∉ st.processed → env.api k = none →
        fetchAndProcessIssue env st k "full_load" =
          ({ st with retry := retryAdd st.retry k }, .noData) ∧
        k ∉ ({ st with retry := retryAdd st.retry k } : LState).processed ∧
        k ∈ ({ st with retry := retryAdd st.retry k } : LState).retry) ∧
    (∀ (env : Env) (st : LState) (k : Key) (t : String) (j : Key),
        j ∈ st.processed → j ∈ (fetchAndProcessIssue env st k t).1.processed) := by
  constructor
  · intro env st k hm hapi
    refine ⟨fetch_fail_postcondition env st k "full_load" hm (by simp [cacheAttempt]) hapi,
      hm, ?_⟩
    simp only [retryAdd]
    by_cases hr : st.retry.contains k
    · simp only [hr, if_true]
      simpa using hr
    · simp only [hr, Bool.false_eq_true, if_false]
      simp
  · intro env st k t j hj
    by_cases hjk : j = k
    · subst hjk
      rw [fetch_skip env st j t hj]
      exact hj
    · exact (fetch_step_other env st k t j hjk).mpr hj

/-- A state in which a different key is already claimed. -/
def stW2 : LState :=
  { processed := ["PRJ-7"], retry := [], db := [], files := [], issueLog := [], now := 0 }

theorem failed_fetch_released_and_retried_witness :
    (fetchAndProcessIssue envDown stW2 "PRJ-1" "full_load" =
       ({ stW2 with retry := retryAdd stW2.retry "PRJ-1" }, .noData) ∧
     "PRJ-1" ∉ ({ stW2 with retry := retryAdd stW2.retry "PRJ-1" } : LState).processed ∧
     "PRJ-1" ∈ ({ stW2 with retry := retryAdd stW2.retry "PRJ-1" } : LState).retry) ∧
    "PRJ-7" ∈ (fetchAndProcessIssue envDown stW2 "PRJ-1" "full_load").1.processed :=
  ⟨failed_fetch_released_and_retried.1 envDown stW2 "PRJ-1" (by decide) rfl,
   failed_fetch_released_and_retried.2 envDown stW2 "PRJ-1" "full_load" "PRJ-7" (by decide)⟩

/-! ## Trace machinery for the engine -/


/-- Generic invariant-plus-entry soundness of the sequential task loop: a
state predicate preserved by every (task-constrained) worker step, together
with an entry predicate established by every such step, holds over the
whole recursive fan-out. -/
theorem crawlTasks_sound (env : Env) (mode : String) (isRetry : Bool)
    (P : LState → Prop) (T : String → Prop)
    (E : Key × String × FetchResult → Prop)
    (hT : ∀ (db : List DbRow) (d : JVal),
        ∀ p ∈ tasksForIssue db env.serverTime mode isRetry d, T p.2)
    (hstep : ∀ st k t, P st → T t →
        P (fetchAndProcessIssue env st k t).1 ∧
        E (k, t, (fetchAndProcessIssue env st k t).2)) :
    ∀ (fuel : Nat) (tasks : List (Key × String)) (st : LState),
      P st → (∀ p ∈ tasks, T p.2) →
      P (crawlTasks env mode isRetry fuel st tasks).1 ∧
      ∀ e ∈ (crawlTasks env mode isRetry fuel st tasks).2, E e := by
  intro fuel
  induction fuel with
  | zero =>
    intro tasks st hP _
    refine ⟨?_, ?_⟩ <;> simp [crawlTasks, hP]
  | succ fuel ih =>
    intro tasks st hP hTall
    cases tasks with
    | nil => refine ⟨?_, ?_⟩ <;> simp [crawlTasks, hP]
    | cons hd rest =>
      obtain ⟨k, t⟩ := hd
      have hTt : T t := hTall (k, t) (List.mem_cons_self _ _)
      have hTrest : ∀ p ∈ rest, T p.2 := fun p hp => hTall p (List.mem_cons_of_mem _ hp)
      have hs := hstep st k t hP hTt
      simp only [crawlTasks]
      generalize hres : fetchAndProcessIssue env st k t = res
      rw [hres] at hs
      obtain ⟨st1, r⟩ := res
      simp only at hs ⊢
      cases r with
      | data d b =>
        by_cases hd : jTruthy d
        · simp only [hd, if_true]
          have hchild := ih (tasksForIssue st1.db env.serverTime mode isRetry d) st1 hs.1
            (hT st1.db d)
          have hrest := ih rest
            (crawlTasks env mode isRetry fuel st1
              (tasksForIssue st1.db env.serverTime mode isRetry d)).1 hchild.1 hTrest
          refine ⟨hrest.1, ?_⟩
          intro e he
          simp only [List.mem_cons, List.mem_append] at he
          rcases he with rfl | he | he
          · exact hs.2
          · exact hchild.2 e he
          · exact hrest.2 e he
        · simp only [hd, Bool.false_eq_true, if_false]
          have hrest := ih rest st1 hs.1 hTrest
          refine ⟨hrest.1, ?_⟩
          intro e he
          simp only [List.mem_cons, List.nil_append] at he
          rcases he with rfl | he
          · exact hs.2
          · exact hrest.2 e he
      | noData =>
        have hrest := ih rest st1 hs.1 hTrest
        refine ⟨hrest.1, ?_⟩
        intro e he
        simp only [List.mem_cons, List.nil_append] at he
        rcases he with rfl | he
        · exact hs.2
        · exact hrest.2 e he
      | skipped =>
        have hrest := ih rest st1 hs.1 hTrest
        refine ⟨hrest.1, ?_⟩
        intro e he
        simp only [List.mem_cons, List.nil_append] at he
        rcases he with rfl | he
        · exact hs.2
        · exact hrest.2 e he
      | raised =>
        have hrest := ih rest st1 hs.1 hTrest
        refine ⟨hrest.1, ?_⟩
        intro e he
        simp only [List.mem_cons, List.nil_append] at he
        rcases he with rfl | he
        · exact hs.2
        · exact hrest.2 e he

/-- Outside delta-mode primary passes (full mode, or any retry pass) every
submitted task is a `full_load`. -/
theorem tasksForIssue_full (db : List DbRow) (stm : Key → Option Int) (mode : String)
    (isRetry : Bool) (h : (mode == "delta" && !isRetry) = false) :
    ∀ d : JVal, ∀ p ∈ tasksForIssue db stm mode isRetry d, p.2 = "full_load" := by
  intro d p hp
  rcases d with _ | s | n | b | xs | kvs <;> simp only [tasksForIssue] at hp
  · exact absurd hp (List.not_mem_nil p)
  · exact absurd hp (List.not_mem_nil p)
  · exact absurd hp (List.not_mem_nil p)
  · exact absurd hp (List.not_mem_nil p)
  · exact absurd hp (List.not_mem_nil p)
  · split at hp
    · exact absurd hp (List.not_mem_nil p)
    · split at hp
      case h_2 => exact absurd hp (List.not_mem_nil p)
      case h_1 ls heq =>
        split at hp
        case h_2 => exact absurd hp (List.not_mem_nil p)
        case h_1 keys hkeys =>
          split at hp
          · exact absurd hp (List.not_mem_nil p)
          · rw [h] at hp
            simp only [Bool.false_eq_true, if_false] at hp
            obtain ⟨k, _, rfl⟩ := List.mem_map.mp hp
            rfl

/-- Soundness of the Phase 2 retry loop: a state predicate preserved by
every `full_load` worker step, with its entry predicate, holds over the
whole retry pass (whose recursion runs in mode `full` with the retry flag
set, hence submits only `full_load` tasks). -/
theorem phase2_sound (env : Env)
    (P : LState → Prop) (E : Key × String × FetchResult → Prop)
    (hstepFull : ∀ st k, P st →
        P (fetchAndProcessIssue env st k "full_load").1 ∧
        E (k, "full_load", (fetchAndProcessIssue env st k "full_load").2)) :
    ∀ (retries : List Key) (fuel : Nat) (st : LState), P st →
      P (phase2Retries env fuel st retries).1 ∧
      ∀ e ∈ (phase2Retries env fuel st retries).2, E e := by
  have hcrawl := crawlTasks_sound env "full" true P (fun t => t = "full_load") E
    (fun db d => tasksForIssue_full db env.serverTime "full" true (by decide) d)
    (fun st k t hP ht => by subst ht; exact hstepFull st k hP)
  intro retries
  induction retries with
  | nil =>
    intro fuel st hP
    refine ⟨?_, ?_⟩ <;> simp [phase2Retries, hP]
  | cons k rest ih =>
    intro fuel st hP
    have hs := hstepFull st k hP
    simp only [phase2Retries]
    generalize hres : fetchAndProcessIssue env st k "full_load" = res
    rw [hres] at hs
    obtain ⟨st1, r⟩ := res
    simp only at hs ⊢
    cases r with
    | data d b =>
      by_cases hd : jTruthy d
      · simp only [hd, if_true, processRelatedIssues]
        have hchild := hcrawl fuel
          (tasksForIssue st1.db env.serverTime "full" true d) st1 hs.1
          (tasksForIssue_full st1.db env.serverTime "full" true (by decide) d)
        have hrest := ih fuel
          (crawlTasks env "full" true fuel st1
            (tasksForIssue st1.db env.serverTime "full" true d)).1 hchild.1
        refine ⟨hrest.1, ?_⟩
        intro e he
        simp only [List.mem_cons, List.mem_append] at he
        rcases he with rfl | he | he
        · exact hs.2
        · exact hchild.2 e he
        · exact hrest.2 e he
      · simp only [hd, Bool.false_eq_true, if_false]
        have hrest := ih fuel st1 hs.1
        refine ⟨hrest.1, ?_⟩
        intro e he
        simp only [List.mem_cons, List.nil_append] at he
        rcases he with rfl | he
        · exact hs.2
        · exact hrest.2 e he
    | noData =>
      have hrest := ih fuel st1 hs.1
      refine ⟨hrest.1, ?_⟩
      intro e he
      simp only [List.mem_cons, List.nil_append] at he
      rcases he with rfl | he
      · exact hs.2
      · exact hrest.2 e he
    | skipped =>
      have hrest := ih fuel st1 hs.1
      refine ⟨hrest.1, ?_⟩
      intro e he
      simp only [List.mem_cons, List.nil_append] at he
      rcases he with rfl | he
      · exact hs.2
      · exact hrest.2 e he
    | raised =>
      have hrest := ih fuel st1 hs.1
      refine ⟨hrest.1, ?_⟩
      intro e he
      simp only [List.mem_cons, List.nil_append] at he
      rcases he with rfl | he
      · exact hs.2
      · exact hrest.2 e he

/-! ## Counting completed processings per key -/

/-- A trace entry in which the worker completed processing of key `k` and
returned its data (live fetch or cache serve). -/
def doneEntry (k : Key) (e : Key × String × FetchResult) : Bool :=
  e.1 == k && (match e.2.2 with | .data _ _ => true | _ => false)

/-- How many trace entries completed processing of `k`. -/
def countDone (k : Key) (tr : List (Key × String × FetchResult)) : Nat :=
  tr.countP (doneEntry k)

/-- Potential of a key: 1 while unclaimed, 0 once claimed. -/
def phi (k : Key) (st : LState) : Nat :=
  if k ∈ st.processed then 0 else 1

/-- One worker invocation on any key spends the potential of `k` for every
completed processing of `k`: a completed entry claims `k` for good. -/
theorem fetch_step_count (env : Env) (st : LState) (k' : Key) (t : String) (k : Key) :
    (if doneEntry k (k', t, (fetchAndProcessIssue env st k' t).2) then 1 else 0) +
      phi k (fetchAndProcessIssue env st k' t).1 ≤ phi k st := by
  by_cases hkk : k' = k
  · subst hkk
    rcases fetch_step_cases env st k' t with ⟨hm, heq⟩ | ⟨hm, hcases⟩
    · rw [heq]
      simp [doneEntry, phi, hm]
    · have hphi : phi k' st = 1 := by simp [phi, hm]
      rw [hphi]
      rcases hcases with ⟨d, b, hr, hmem⟩ | ⟨hr, hproc⟩ | ⟨hr, hmem⟩
      · simp [doneEntry, hr, phi, hmem]
      · simp [doneEntry, hr, phi, hproc, hm]
      · simp [doneEntry, hr, phi, hmem]
  · have hd : doneEntry k (k', t, (fetchAndProcessIssue env st k' t).2) = false := by
      simp [doneEntry, hkk]
    rw [hd]
    have hio := fetch_step_other env st k' t k (fun he => hkk he.symm)
    by_cases hk : k ∈ st.processed <;> simp [phi, hio, hk]

/-- The recursive fan-out completes the processing of `k` at most once per
unit of remaining potential. -/
theorem crawlTasks_count (env : Env) (mode : String) (isRetry : Bool) (k : Key) :
    ∀ (fuel : Nat) (tasks : List (Key × String)) (st : LState),
      countDone k (crawlTasks env mode isRetry fuel st tasks).2 +
        phi k (crawlTasks env mode isRetry fuel st tasks).1 ≤ phi k st := by
  intro fuel
  induction fuel with
  | zero => intro tasks st; simp [crawlTasks, countDone]
  | succ fuel ih =>
    intro tasks st
    cases tasks with
    | nil => simp [crawlTasks, countDone]
    | cons hd rest =>
      obtain ⟨k', t⟩ := hd
      have hstep := fetch_step_count env st k' t k
      simp only [crawlTasks]
      generalize hres : fetchAndProcessIssue env st k' t = res
      rw [hres] at hstep
      obtain ⟨st1, r⟩ := res
      simp only at hstep ⊢
      cases r with
      | data d b =>
        by_cases hd2 : jTruthy d
        · simp only [hd2, if_true]
          have hchild := ih (tasksForIssue st1.db env.serverTime mode isRetry d) st1
          have hrest := ih rest
            (crawlTasks env mode isRetry fuel st1
              (tasksForIssue st1.db env.serverTime mode isRetry d)).1
          simp only [countDone, List.countP_cons, List.countP_append] at hchild hrest hstep ⊢
          simp only [doneEntry] at hstep ⊢
          omega
        · simp only [hd2, Bool.false_eq_true, if_false]
          have hrest := ih rest st1
          simp only [countDone, List.countP_cons, List.countP_append, List.nil_append]
            at hrest hstep ⊢
          simp only [doneEntry] at hstep ⊢
          omega
      | noData =>
        have hrest := ih rest st1
        simp only [countDone, List.countP_cons, List.countP_append, List.nil_append]
          at hrest hstep ⊢
        simp only [doneEntry] at hstep ⊢
        omega
      | skipped =>
        have hrest := ih rest st1
        simp only [countDone, List.countP_cons, List.countP_append, List.nil_append]
          at hrest hstep ⊢
        simp only [doneEntry] at hstep ⊢
        omega
      | raised =>
        have hrest := ih rest st1
        simp only [countDone, List.countP_cons, List.countP_append, List.nil_append]
          at hrest hstep ⊢
        simp only [doneEntry] at hstep ⊢
        omega

/-- The Phase 2 retry loop satisfies the same potential bound. -/
theorem phase2_count (env : Env) (k : Key) :
    ∀ (retries : List Key) (fuel : Nat) (st : LState),
      countDone k (phase2Retries env fuel st retries).2 +
        phi k (phase2Retries env fuel st retries).1 ≤ phi k st := by
  intro retries
  induction retries with
  | nil => intro fuel st; simp [phase2Retries, countDone]
  | cons k' rest ih =>
    intro fuel st
    have hstep := fetch_step_count env st k' "full_load" k
    simp only [phase2Retries]
    generalize hres : fetchAndProcessIssue env st k' "full_load" = res
    rw [hres] at hstep
    obtain ⟨st1, r⟩ := res
    simp only at hstep ⊢
    cases r with
    | data d b =>
      by_cases hd2 : jTruthy d
      · simp only [hd2, if_true, processRelatedIssues]
        have hchild := crawlTasks_count env "full" true k fuel
          (tasksForIssue st1.db env.serverTime "full" true d) st1
        have hrest := ih fuel
          (crawlTasks env "full" true fuel st1
            (tasksForIssue st1.db env.serverTime "full" true d)).1
        simp only [countDone, List.countP_cons, List.countP_append] at hchild hrest hstep ⊢
        simp only [doneEntry] at hstep ⊢
        omega
      · simp only [hd2, Bool.false_eq_true, if_false]
        have hrest := ih fuel st1
        simp only [countDone, List.countP_cons, List.countP_append, List.nil_append]
          at hrest hstep ⊢
        simp only [doneEntry] at hstep ⊢
        omega
    | noData =>
      have hrest := ih fuel st1
      simp only [countDone, List.countP_cons, List.countP_append, List.nil_append]
        at hrest hstep ⊢
      simp only [doneEntry] at hstep ⊢
      omega
    | skipped =>
      have hrest := ih fuel st1
      simp only [countDone, List.countP_cons, List.countP_append, List.nil_append]
        at hrest hstep ⊢
      simp only [doneEntry] at hstep ⊢
      omega
    | raised =>
      have hrest := ih fuel st1
      simp only [countDone, List.countP_cons, List.countP_append, List.nil_append]
        at hrest hstep ⊢
      simp only [doneEntry] at hstep ⊢
      omega

/-- Inversion of a completed run: the shape of the final state and trace of
`runLoader` in terms of the root invocation, the Phase 1 fan-out and the
Phase 2 retry pass. -/
theorem runLoader_eq_some (env : Env) (lm : String) (mo : Option String) (k0 : Key)
    (st0 : LState) (fuel : Nat) (out : LState × List (Key × String × FetchResult))
    (hrun : runLoader env lm mo k0 st0 fuel = some out) :
    ∃ (st1 : LState) (r0 : FetchResult)
      (ph1 : LState × List (Key × String × FetchResult)),
      fetchAndProcessIssue env { st0 with processed := [], retry := [] } k0 "full_load"
          = (st1, r0) ∧
      r0 ≠ .raised ∧
      ((∃ d b, r0 = .data d b ∧ jTruthy d = true ∧
          ph1 = crawlTasks env (mo.getD lm) false fuel st1
            (tasksForIssue st1.db env.serverTime (mo.getD lm) false d)) ∨
        ph1 = (st1, [])) ∧
      out = (runTail (phase2Retries env fuel { ph1.1 with retry := [] } ph1.1.retry).1,
        (k0, "full_load", r0) ::
          (ph1.2 ++ (phase2Retries env fuel { ph1.1 with retry := [] } ph1.1.retry).2)) := by
  simp only [runLoader] at hrun
  rcases hroot : fetchAndProcessIssue env { st0 with processed := [], retry := [] }
      k0 "full_load" with ⟨st1, r0⟩
  rw [hroot] at hrun
  refine ⟨st1, r0, ?_⟩
  cases r0 with
  | raised => exact absurd hrun (by simp)
  | data d b =>
    by_cases htr : jTruthy d
    · simp only [htr, if_true, processRelatedIssues] at hrun
      refine ⟨crawlTasks env (mo.getD lm) false fuel st1
        (tasksForIssue st1.db env.serverTime (mo.getD lm) false d), rfl, by simp,
        Or.inl ⟨d, b, rfl, htr, rfl⟩, ?_⟩
      exact (Option.some.inj hrun).symm
    · simp only [htr, Bool.false_eq_true, if_false] at hrun
      refine ⟨(st1, []), rfl, by simp, Or.inr rfl, ?_⟩
      exact (Option.some.inj hrun).symm
  | noData =>
    refine ⟨(st1, []), rfl, by simp, Or.inr rfl, ?_⟩
    exact (Option.some.inj hrun).symm
  | skipped =>
    refine ⟨(st1, []), rfl, by simp, Or.inr rfl, ?_⟩
    exact (Option.some.inj hrun).symm

/-- C2: within one run, each key is processed at most once.  An invocation
for an already-claimed key returns immediately as `skipped` (no fetch,
transform or persist, and no state change), and over the whole trace of any
completed run each key has at most one completed processing. -/
theorem claimed_set_at_most_once :
    (∀ (env : Env) (st : LState) (k : Key) (t : String),
        k ∈ st.processed → fetchAndProcessIssue env st k t = (st, .skipped)) ∧
    (∀ (env : Env) (lm : String) (mo : Option String) (k0 : Key) (st0 : LState)
        (fuel : Nat) (out : LState × List (Key × String × FetchResult)),
        runLoader env lm mo k0 st0 fuel = some out →
        ∀ k, countDone k out.2 ≤ 1) := by
  constructor
  · exact fetch_skip
  · intro env lm mo k0 st0 fuel out hrun k
    obtain ⟨st1, r0, ph1, hroot, hnr, hph1, hout⟩ :=
      runLoader_eq_some env lm mo k0 st0 fuel out hrun
    have hstep := fetch_step_count env { st0 with processed := [], retry := [] } k0 "full_load" k
    rw [hroot] at hstep
    have hzero : phi k { st0 with processed := [], retry := [] } = 1 := by
      simp [phi]
    rw [hzero] at hstep
    have hph2 := phase2_count env k ph1.1.retry fuel { ph1.1 with retry := [] }
    have hphiEq : phi k { ph1.1 with retry := [] } = phi k ph1.1 := rfl
    rw [hphiEq] at hph2
    have hph1c : countDone k ph1.2 + phi k ph1.1 ≤ phi k st1 := by
      rcases hph1 with ⟨d, b, _, _, rfl⟩ | rfl
      · exact crawlTasks_count env (mo.getD lm) false k fuel
          (tasksForIssue st1.db env.serverTime (mo.getD lm) false d) st1
      · simp [countDone]
    subst hout
    simp only at hstep
    simp only [countDone, List.countP_cons, List.countP_append]
      at hstep hph2 hph1c ⊢
    omega

/-- The final state and trace of a full run against an unreachable endpoint:
the root fails live in Phase 1 and again in Phase 2, so the run ends with
the root key in the retry map and in the failure log. -/
def outW : LState × List (Key × String × FetchResult) :=
  ({ processed := [], retry := ["R"], db := [], files := [], issueLog := ["R"], now := 0 },
   [("R", "full_load", .noData), ("R", "full_load", .noData)])

theorem claimed_set_at_most_once_witness :
    fetchAndProcessIssue envDown stW2 "PRJ-7" "full_load" = (stW2, .skipped) ∧
    countDone "R" outW.2 ≤ 1 :=
  ⟨claimed_set_at_most_once.1 envDown stW2 "PRJ-7" "full_load" (by decide),
   claimed_set_at_most_once.2 envDown "full" none "R" st0 5 outW rfl "R"⟩

/-- C4: in every completed run, whatever the loader mode and override, the
trace starts with the start key as a `full_load` task, and that root result
is never served from the cache. -/
theorem root_always_full_load :
    ∀ (env : Env) (lm : String) (mo : Option String) (k0 : Key) (st0 : LState)
      (fuel : Nat) (out : LState × List (Key × String × FetchResult)),
      runLoader env lm mo k0 st0 fuel = some out →
      ∃ r0, out.2.head? = some (k0, "full_load", r0) ∧ ∀ d, r0 ≠ .data d true := by
  intro env lm mo k0 st0 fuel out hrun
  obtain ⟨st1, r0, ph1, hroot, hnr, hph1, hout⟩ :=
    runLoader_eq_some env lm mo k0 st0 fuel out hrun
  refine ⟨r0, ?_, ?_⟩
  · rw [hout]
    rfl
  · intro d hd
    have := fetch_not_served env { st0 with processed := [], retry := [] } k0 "full_load"
      (by decide) d
    rw [hroot] at this
    exact this hd

theorem root_always_full_load_witness :
    ∃ r0, outW.2.head? = some ("R", "full_load", r0) ∧ ∀ d, r0 ≠ .data d true :=
  root_always_full_load envDown "full" none "R" st0 5 outW rfl

/-- The failure-log writer in closed form: prior file content, then the
failed keys not already present. -/
theorem logFinalFailures_eq (e r : List Key) :
    logFinalFailures e r = e ++ r.filter (fun k => !e.contains k) := by
  rw [logFinalFailures]
  by_cases h : r.isEmpty
  · rw [if_pos h]
    rw [List.isEmpty_iff] at h
    subst h
    simp
  · rw [if_neg h]

/-- Every finally failed key ends up in the written log. -/
theorem mem_logFinalFailures (e r : List Key) (k : Key) (hk : k ∈ r) :
    k ∈ logFinalFailures e r := by
  rw [logFinalFailures_eq]
  by_cases he : k ∈ e
  · exact List.mem_append_left _ he
  · refine List.mem_append_right _ (List.mem_filter.mpr ⟨hk, ?_⟩)
    simp [he]

/-- C6: at the end of a completed run, the keys still failing after the
Phase 2 retry pass are exactly what gets appended to the failure log,
deduplicated against the log entries present before the run (no worker
invocation during the run touches the log), and every such key is in the
final log. -/
theorem final_failures_logged_deduplicated :
    ∀ (env : Env) (lm : String) (mo : Option String) (k0 : Key) (st0 : LState)
      (fuel : Nat) (out : LState × List (Key × String × FetchResult)),
      runLoader env lm mo k0 st0 fuel = some out →
      out.1.issueLog =
        st0.issueLog ++ out.1.retry.filter (fun k => !st0.issueLog.contains k) ∧
      ∀ k ∈ out.1.retry, k ∈ out.1.issueLog := by
  intro env lm mo k0 st0 fuel out hrun
  obtain ⟨st1, r0, ph1, hroot, hnr, hph1, hout⟩ :=
    runLoader_eq_some env lm mo k0 st0 fuel out hrun
  have h1 : st1.issueLog = st0.issueLog := by
    have h := fetch_step_issueLog env { st0 with processed := [], retry := [] } k0 "full_load"
    rw [hroot] at h
    exact h
  have hph1log : ph1.1.issueLog = st0.issueLog := by
    rcases hph1 with ⟨d, b, _, _, rfl⟩ | rfl
    · exact (crawlTasks_sound env (mo.getD lm) false
        (fun s => s.issueLog = st0.issueLog) (fun _ => True) (fun _ => True)
        (fun _ _ _ _ => trivial)
        (fun st k t hP _ => ⟨(fetch_step_issueLog env st k t).trans hP, trivial⟩)
        fuel (tasksForIssue st1.db env.serverTime (mo.getD lm) false d) st1 h1
        (fun _ _ => trivial)).1
    · exact h1
  have hph2log :
      (phase2Retries env fuel { ph1.1 with retry := [] } ph1.1.retry).1.issueLog
        = st0.issueLog :=
    (phase2_sound env (fun s => s.issueLog = st0.issueLog) (fun _ => True)
      (fun st k hP => ⟨(fetch_step_issueLog env st k "full_load").trans hP, trivial⟩)
      ph1.1.retry fuel { ph1.1 with retry := [] } hph1log).1
  subst hout
  simp only [runTail]
  refine ⟨?_, ?_⟩
  · rw [hph2log, logFinalFailures_eq]
  · intro k hk
    exact mem_logFinalFailures _ _ k hk

theorem final_failures_logged_deduplicated_witness :
    outW.1.issueLog =
      st0.issueLog ++ outW.1.retry.filter (fun k => !st0.issueLog.contains k) ∧
    ∀ k ∈ outW.1.retry, k ∈ outW.1.issueLog :=
  final_failures_logged_deduplicated envDown "full" none "R" st0 5 outW rfl

/-- Every sub-task entry built by the comprehension carries the
`sub_task` relation kind. -/
theorem subTasksLoop_tags :
    ∀ (tasks out : List JVal), subTasksLoop tasks = some out →
      ∀ v ∈ out, nodeGet v "relation_type" .null = .str "sub_task" := by
  intro tasks
  induction tasks with
  | nil =>
    intro out h v hv
    obtain rfl : ([] : List JVal) = out := Option.some.inj h
    exact absurd hv (List.not_mem_nil v)
  | cons task rest ih =>
    intro out h v hv
    rw [subTasksLoop, obind_eq_some] at h
    obtain ⟨e, he, h⟩ := h
    rw [obind_eq_some] at h
    obtain ⟨more, hm, h⟩ := h
    obtain rfl := Option.some.inj h
    rcases List.mem_cons.mp hv with rfl | hvm
    · rw [subTaskEntry] at he
      rw [Option.bind_eq_bind, Option.bind_eq_some] at he
      obtain ⟨k, hk, he⟩ := he
      rw [Option.bind_eq_some] at he
      obtain ⟨tf, htf, he⟩ := he
      rw [Option.bind_eq_some] at he
      obtain ⟨title, htitle, he⟩ := he
      simp only [Option.pure_def] at he
      obtain rfl := Option.some.inj he
      rfl
    · exact ih more hm v hvm

/-- `mkSubTasks` only produces `sub_task`-tagged entries. -/
theorem mkSubTasks_tags (raw : JVal) (out : List JVal) (h : mkSubTasks raw = some out) :
    ∀ v ∈ out, nodeGet v "relation_type" .null = .str "sub_task" := by
  rcases raw with _ | s | n | b | tasks | kvs
  · exact Option.noConfusion h
  · exact Option.noConfusion h
  · exact Option.noConfusion h
  · exact Option.noConfusion h
  · exact subTasksLoop_tags tasks out h
  · exact Option.noConfusion h

theorem realizedFromLinks_tags :
    ∀ (links out : List JVal), realizedFromLinks links = some out →
      ∀ v ∈ out, nodeGet v "relation_type" .null = .str "realized_by" := by
  intro links
  induction links with
  | nil =>
    intro out h v hv
    obtain rfl : ([] : List JVal) = out := Option.some.inj h
    exact absurd hv (List.not_mem_nil v)
  | cons link rest ih =>
    intro out h v hv
    rw [realizedFromLinks] at h
    repeat rw [Option.bind_eq_bind] at h
    rw [Option.bind_eq_some] at h
    obtain ⟨hasOut, hHO, h⟩ := h
    split at h
    · rw [Option.bind_eq_some'] at h
      obtain ⟨t, hT, h⟩ := h
      rw [Option.bind_eq_some] at h
      obtain ⟨r, hR, h⟩ := h
      rw [Option.bind_eq_some] at h
      obtain ⟨iss, hIss, h⟩ := h
      rw [Option.bind_eq_some] at h
      obtain ⟨ri, hri, h⟩ := h
      obtain rfl := Option.some.inj hri
      simp only [] at h
      split at h
      · rw [Option.bind_eq_some'] at h
        obtain ⟨k, hK, h⟩ := h
        rw [Option.bind_eq_some] at h
        obtain ⟨f, hF, h⟩ := h
        rw [Option.bind_eq_some] at h
        obtain ⟨sv, hS, h⟩ := h
        rw [Option.bind_eq_some] at h
        obtain ⟨e1, he1, h⟩ := h
        obtain rfl := Option.some.inj he1
        rw [Option.bind_eq_some] at h
        obtain ⟨more, hM, h⟩ := h
        simp only [Option.pure_def, List.singleton_append] at h
        obtain rfl := Option.some.inj h
        rcases List.mem_cons.mp hv with rfl | hvm
        · rfl
        · exact ih more hM v hvm
      · rw [Option.bind_eq_some'] at h
        obtain ⟨e0, he0, h⟩ := h
        obtain rfl := Option.some.inj he0
        rw [Option.bind_eq_some] at h
        obtain ⟨more, hM, h⟩ := h
        simp only [Option.pure_def, List.nil_append] at h
        obtain rfl := Option.some.inj h
        exact ih more hM v hv
    · rw [Option.bind_eq_some'] at h
      obtain ⟨hasIn, hHI, h⟩ := h
      split at h
      · rw [Option.bind_eq_some'] at h
        obtain ⟨t, hT, h⟩ := h
        rw [Option.bind_eq_some] at h
        obtain ⟨r, hR, h⟩ := h
        rw [Option.bind_eq_some] at h
        obtain ⟨iss, hIss, h⟩ := h
        rw [Option.bind_eq_some] at h
        obtain ⟨ri, hri, h⟩ := h
        obtain rfl := Option.some.inj hri
        simp only [] at h
        split at h
        · rw [Option.bind_eq_some'] at h
          obtain ⟨k, hK, h⟩ := h
          rw [Option.bind_eq_some] at h
          obtain ⟨f, hF, h⟩ := h
          rw [Option.bind_eq_some] at h
          obtain ⟨sv, hS, h⟩ := h
          rw [Option.bind_eq_some] at h
          obtain ⟨e1, he1, h⟩ := h
          obtain rfl := Option.some.inj he1
          rw [Option.bind_eq_some] at h
          obtain ⟨more, hM, h⟩ := h
          simp only [Option.pure_def, List.singleton_append] at h
          obtain rfl := Option.some.inj h
          rcases List.mem_cons.mp hv with rfl | hvm
          · rfl
          · exact ih more hM v hvm
        · rw [Option.bind_eq_some'] at h
          obtain ⟨e0, he0, h⟩ := h
          obtain rfl := Option.some.inj he0
          rw [Option.bind_eq_some] at h
          obtain ⟨more, hM, h⟩ := h
          simp only [Option.pure_def, List.nil_append] at h
          obtain rfl := Option.some.inj h
          exact ih more hM v hv
      · rw [Option.bind_eq_some'] at h
        obtain ⟨ri, hri, h⟩ := h
        obtain rfl := Option.some.inj hri
        simp only [] at h
        split at h
        · rw [Option.bind_eq_some'] at h
          obtain ⟨k, hK, h⟩ := h
          rw [Option.bind_eq_some] at h
          obtain ⟨f, hF, h⟩ := h
          rw [Option.bind_eq_some] at h
          obtain ⟨sv, hS, h⟩ := h
          rw [Option.bind_eq_some] at h
          obtain ⟨e1, he1, h⟩ := h
          obtain rfl := Option.some.inj he1
          rw [Option.bind_eq_some] at h
          obtain ⟨more, hM, h⟩ := h
          simp only [Option.pure_def, List.singleton_append] at h
          obtain rfl := Option.some.inj h
          rcases List.mem_cons.mp hv with rfl | hvm
          · rfl
          · exact ih more hM v hvm
        · rw [Option.bind_eq_some'] at h
          obtain ⟨e0, he0, h⟩ := h
          obtain rfl := Option.some.inj he0
          rw [Option.bind_eq_some] at h
          obtain ⟨more, hM, h⟩ := h
          simp only [Option.pure_def, List.nil_append] at h
          obtain rfl := Option.some.inj h
          exact ih more hM v hv

/-- Every link extracted from `Linked Issues` carries the `realized_by`
relation kind. -/
theorem extractRealizedByLinks_tags (fields : JVal) (out : List JVal)
    (h : extractRealizedByLinks fields = some out) :
    ∀ v ∈ out, nodeGet v "relation_type" .null = .str "realized_by" := by
  rw [extractRealizedByLinks] at h
  repeat rw [Option.bind_eq_bind] at h
  rw [Option.bind_eq_some] at h
  obtain ⟨linked, hl, h⟩ := h
  rcases linked with _ | s | n | b | links | kvs
  · exact Option.noConfusion h
  · exact Option.noConfusion h
  · exact Option.noConfusion h
  · exact Option.noConfusion h
  · exact realizedFromLinks_tags links out h
  · exact Option.noConfusion h

/-- C10: in the transformer output, the merged `issue_links` list is ordered
deterministically by source: first the `realized_by` links extracted from
the record's `Linked Issues` in input order, then the supplied child-issue
list in its given order, then the record's sub-tasks in input order, each
element tagged with the relation kind of its source. -/
theorem issue_links_merge_order :
    ∀ (api_data : JVal) (child_issues_list : List JVal) (rec2 : JVal),
      transform api_data child_issues_list = some rec2 →
      ∃ (name_map fields0 fields : JVal) (realized subs : List JVal),
        pyGetD api_data "names" (.obj []) = some name_map ∧
        pyGetD api_data "fields" (.obj []) = some fields0 ∧
        (if jTruthy name_map then renameFields name_map fields0 else some fields0)
            = some fields ∧
        extractRealizedByLinks fields = some realized ∧
        (∃ subRaw, pyGetD fields "subtasks" (.arr []) = some subRaw ∧
            mkSubTasks subRaw = some subs) ∧
        nodeGet rec2 "issue_links" .null = .arr (realized ++ child_issues_list ++ subs) ∧
        (∀ v ∈ realized, nodeGet v "relation_type" .null = .str "realized_by") ∧
        (∀ v ∈ subs, nodeGet v "relation_type" .null = .str "sub_task") := by
  intro api_data child_issues_list rec2 htr
  rw [transform] at htr
  simp only [obind_eq_some, Option.some.injEq] at htr
  obtain ⟨nm, hnm, f0, hf0, fl, hfl, x4, -, x5, -, x6, -, sr, hsr, sl, hsl, rl, hrl,
    x10, -, x11, -, x12, -, x13, -, x14, -, x15, -, x16, -, x17, -, x18, -, x19, -,
    x20, -, x21, -, x22, -, x23, -, x24, -, x25, -, x26, -, x27, -, x28, -, x29, -,
    x30, -, x31, -, x32, -, x33, -, x34, -, x35, -, x36, -, x37, -, x38, -, x39, -,
    hrec⟩ := htr
  subst hrec
  exact ⟨nm, f0, fl, rl, sl, hnm, hf0, hfl, hrl, ⟨sr, hsr, hsl⟩, rfl,
    extractRealizedByLinks_tags fl rl hrl, mkSubTasks_tags sr sl hsl⟩

/-- A minimal raw record and one previously loaded child issue. -/
def apiW : JVal := JVal.obj [("key", .str "K")]

def childW : JVal := JVal.obj [("key", .str "S-1"), ("relation_type", .str "child")]

theorem issue_links_merge_order_witness :
    ∃ (name_map fields0 fields : JVal) (realized subs : List JVal),
      pyGetD apiW "names" (.obj []) = some name_map ∧
      pyGetD apiW "fields" (.obj []) = some fields0 ∧
      (if jTruthy name_map then renameFields name_map fields0 else some fields0)
          = some fields ∧
      extractRealizedByLinks fields = some realized ∧
      (∃ subRaw, pyGetD fields "subtasks" (.arr []) = some subRaw ∧
          mkSubTasks subRaw = some subs) ∧
      nodeGet ((transform apiW [childW]).getD .null) "issue_links" .null
          = .arr (realized ++ [childW] ++ subs) ∧
      (∀ v ∈ realized, nodeGet v "relation_type" .null = .str "realized_by") ∧
      (∀ v ∈ subs, nodeGet v "relation_type" .null = .str "sub_task") :=
  issue_links_merge_order apiW [childW] ((transform apiW [childW]).getD .null) rfl
